import Mathlib

/-!
Composition of the Concourse pipeline JSON schema (`main.go`)

A shallow embedding of `stepSchema` and `main` and the properties of the
schema-composition algorithm.

Conventions of the embedding.

* A Go `map[string]V` and the ordered map behind `Properties` are association
  lists `List (String × V)`; `mapGet` is the lookup `m[k]` and `mapSet` is the
  assignment `m[k] = v`.  The list order of a reflected fragment's
  `Definitions` is the order in which `range` visits that map; the order in
  which `range` visits `hookProperties` for a given step is the explicit
  argument `hookOrder`.
* `*jsonschema.Type` values are held by value.  `jsonschema.Reflect` allocates
  every definition and every ordered map freshly, so the only alias in play is
  the one `stepSchema` creates itself (`stepDef` and `Definitions["Step"]`);
  the insert-if-absent loops never rebind a present key, hence a write through
  `stepDef` is a write to the table entry named `Step`.
* A nil pointer dereference (a run-time panic) is the result `none`.  The nil
  pointers that can arise are the result of looking up an absent name and a
  nil `Properties`; a reflected schema always has a top-level descriptor and a
  definitions map, and its map never binds a name to nil.
-/

set_option linter.dupNamespace false

namespace jsonschema

/-- Modelled from the spec: the `Type` struct of the external jsonschema
library (a Definition / PropertyType of the data model).  The fields that
`main.go` reads or writes are kept by name; `Extra` carries all the remaining
fields (Version, Title, Description, ...), none of which `main.go` touches.
`Properties = none` is the nil ordered-map pointer, `AdditionalProperties =
none` the nil raw message, `Required = []` the nil slice. -/
structure Type_ where
  Ref : String
  AnyOf : List Type_
  Items : Option Type_
  Properties : Option (List (String × Type_))
  AdditionalProperties : Option String
  Required : List String
  Extra : String
  Type_ : String

/-- The Go type `jsonschema.Definitions`, a `map[string]*Type`. -/
abbrev Definitions := List (String × jsonschema.Type_)

/-- Modelled from the spec: the `Schema` struct of the external jsonschema
library, the embedded top-level `*Type` together with the definitions table. -/
structure Schema where
  Type_ : jsonschema.Type_
  Definitions : jsonschema.Definitions

end jsonschema

namespace atc

/-- The sixteen step types of the `atc` package that `stepSchema` reflects. -/
inductive StepConfig where
  | GetStep | PutStep | TaskStep | SetPipelineStep
  | LoadVarStep | InParallelStep | DoStep | TryStep
  | OnSuccessStep | OnFailureStep | OnAbortStep | OnErrorStep
  | EnsureStep | TimeoutStep | RetryStep | AcrossStep
  deriving DecidableEq, Repr

end atc

namespace Composer

open jsonschema

/-- The lookup `m[key]`: the first binding of `key`, `none` when absent. -/
def mapGet {α : Type} : List (String × α) → String → Option α
  | [], _ => none
  | (k, v) :: rest, key => if k = key then some v else mapGet rest key

/-- The assignment `m[key] = val`: an existing binding is replaced where it
stands, a new key is added at the end. -/
def mapSet {α : Type} : List (String × α) → String → α → List (String × α)
  | [], key, val => [(key, val)]
  | (k, v) :: rest, key, val =>
    if k = key then (k, val) :: rest else (k, v) :: mapSet rest key val

/-- The keys of a map, in representation order. -/
def mapKeys {α : Type} (m : List (String × α)) : List String := m.map Prod.fst

/-- Modelled from the spec: `Set` of the external ordered-map library behind
`Properties` (an ordered mapping name → PropertyType): an existing key keeps
its position and gets the new value, a new key is appended. -/
def OrderedMap.Set (o : List (String × jsonschema.Type_)) (key : String)
    (value : jsonschema.Type_) : List (String × jsonschema.Type_) :=
  mapSet o key value

/-- A type descriptor that is only a reference, `{Ref: ref}`. -/
def refType (ref : String) : jsonschema.Type_ :=
  { Ref := ref, AnyOf := [], Type_ := "", Items := none, Properties := none,
    AdditionalProperties := none, Required := [], Extra := "" }

/-- A type descriptor that is only a primitive tag, `{Type: tag}`. -/
def primType (tag : String) : jsonschema.Type_ :=
  { Ref := "", AnyOf := [], Type_ := tag, Items := none, Properties := none,
    AdditionalProperties := none, Required := [], Extra := "" }

/-- A type descriptor `{Type: "array", Items: items}`. -/
def arrayType (items : jsonschema.Type_) : jsonschema.Type_ :=
  { Ref := "", AnyOf := [], Type_ := "array", Items := some items, Properties := none,
    AdditionalProperties := none, Required := [], Extra := "" }

/-- Lines 19-28: the core step types, in source order. -/
def coreStepConfigs : List atc.StepConfig :=
  [.GetStep, .PutStep, .TaskStep, .SetPipelineStep,
   .LoadVarStep, .InParallelStep, .DoStep, .TryStep]

/-- Lines 31-40: the hook and modifier types, in source order. -/
def hookAndModifierConfigs : List atc.StepConfig :=
  [.OnSuccessStep, .OnFailureStep, .OnAbortStep, .OnErrorStep,
   .EnsureStep, .TimeoutStep, .RetryStep, .AcrossStep]

/-- Lines 65-75: the entries of the `hookProperties` map literal. -/
def hookProperties : List (String × jsonschema.Type_) :=
  [("on_success", refType "#/definitions/Step"),
   ("on_failure", refType "#/definitions/Step"),
   ("on_abort", refType "#/definitions/Step"),
   ("on_error", refType "#/definitions/Step"),
   ("ensure", refType "#/definitions/Step"),
   ("timeout", primType "string"),
   ("attempts", primType "integer"),
   ("across", arrayType (refType "#/definitions/AcrossVarConfig")),
   ("fail_fast", primType "boolean")]

/-- Line 78: the names of the core step definitions, in source order. -/
def stepNames : List String :=
  ["GetStep", "PutStep", "TaskStep", "SetPipelineStep",
   "LoadVarStep", "InParallelStep", "DoStep", "TryStep"]

/-- A field write through the pointer `defs[name]`: a nil dereference when the
name is absent, otherwise the entry is rewritten in place. -/
def updateDef (defs : Definitions) (name : String)
    (f : jsonschema.Type_ → jsonschema.Type_) : Option Definitions :=
  match mapGet defs name with
  | none => none
  | some d => some (mapSet defs name (f d))

/-- Lines 46-50 and 56-60: the insert-if-absent loop over a fragment's
definitions. -/
def mergeDefinitions (target incoming : Definitions) : Definitions :=
  incoming.foldl
    (fun defs sub =>
      match mapGet defs sub.1 with
      | some _ => defs
      | none => mapSet defs sub.1 sub.2)
    target

/-- Lines 44-50: one iteration of the loop over the core step types. -/
def addCoreStep (Reflect : atc.StepConfig → Schema) (defs : Definitions)
    (s : atc.StepConfig) : Option Definitions :=
  let stepSchema := Reflect s
  match updateDef defs "Step"
      (fun stepDef => { stepDef with AnyOf := stepDef.AnyOf ++ [stepSchema.Type_] }) with
  | none => none
  | some defs1 => some (mergeDefinitions defs1 stepSchema.Definitions)

/-- Lines 43-51: the loop over the core step types. -/
def coreLoop (Reflect : atc.StepConfig → Schema) :
    List atc.StepConfig → Definitions → Option Definitions
  | [], defs => some defs
  | s :: rest, defs =>
    match addCoreStep Reflect defs s with
    | none => none
    | some defs1 => coreLoop Reflect rest defs1

/-- Lines 54-61: the loop over the hook and modifier types. -/
def hookLoop (Reflect : atc.StepConfig → Schema) :
    List atc.StepConfig → Definitions → Definitions
  | [], defs => defs
  | s :: rest, defs => hookLoop Reflect rest (mergeDefinitions defs (Reflect s).Definitions)

/-- Line 81: `stepTypeDef.Properties.Set(hookName, hookType)`; a nil
`Properties` pointer is dereferenced by `Set`. -/
def setHook (stepTypeDef : jsonschema.Type_) (hook : String × jsonschema.Type_) :
    Option jsonschema.Type_ :=
  match stepTypeDef.Properties with
  | none => none
  | some props =>
    some { stepTypeDef with Properties := some (OrderedMap.Set props hook.1 hook.2) }

/-- Lines 80-82: the loop over `hookProperties`, in the order `range` yields. -/
def setHooks : List (String × jsonschema.Type_) → jsonschema.Type_ → Option jsonschema.Type_
  | [], stepTypeDef => some stepTypeDef
  | hook :: rest, stepTypeDef =>
    match setHook stepTypeDef hook with
    | none => none
    | some d => setHooks rest d

/-- Lines 79-83: one iteration of the loop over the step names. -/
def injectStep (hookOrder : String → List (String × jsonschema.Type_))
    (defs : Definitions) (stepName : String) : Option Definitions :=
  match mapGet defs stepName with
  | some stepTypeDef =>
    match setHooks (hookOrder stepName) stepTypeDef with
    | none => none
    | some d => some (mapSet defs stepName d)
  | none => some defs

/-- Lines 78-84: the loop over the step names. -/
def injectLoop (hookOrder : String → List (String × jsonschema.Type_)) :
    List String → Definitions → Option Definitions
  | [], defs => some defs
  | stepName :: rest, defs =>
    match injectStep hookOrder defs stepName with
    | none => none
    | some defs1 => injectLoop hookOrder rest defs1

/-- Lines 86-89: the four writes that relax the `Step` definition. -/
def relaxStep (defs : Definitions) : Option Definitions :=
  match updateDef defs "Step" (fun stepDef => { stepDef with Required := [] }) with
  | none => none
  | some defs1 =>
    match updateDef defs1 "Step" (fun d => { d with Properties := none }) with
    | none => none
    | some defs2 =>
      match updateDef defs2 "Step" (fun d => { d with Type_ := "" }) with
      | none => none
      | some defs3 => updateDef defs3 "Step" (fun d => { d with AdditionalProperties := none })

/-- Lines 12-90: `stepSchema`.  `hookOrder stepName` is the order in which
`range hookProperties` yields the entries while `stepName` is processed. -/
def stepSchema (hookOrder : String → List (String × jsonschema.Type_))
    (Reflect : atc.StepConfig → Schema) (schema : Schema) : Option Schema :=
  match coreLoop Reflect coreStepConfigs schema.Definitions with
  | none => none
  | some defs1 =>
    match injectLoop hookOrder stepNames (hookLoop Reflect hookAndModifierConfigs defs1) with
    | none => none
    | some defs2 =>
      match relaxStep defs2 with
      | none => none
      | some defs3 => some { schema with Definitions := defs3 }

/-- Lines 96-97: the two manual overrides of `main`. -/
def overrides (schema : Schema) : Option Schema :=
  let schema1 : Schema :=
    { schema with Type_ := { schema.Type_ with AdditionalProperties := some "true" } }
  match updateDef schema1.Definitions "CheckEvery" (fun d => { d with Type_ := "string" }) with
  | none => none
  | some defs => some { schema1 with Definitions := defs }

/-- What a run leaves behind: the two output streams and the exit status. -/
structure Outcome where
  stdout : String
  stderr : String
  exitCode : Nat
  deriving DecidableEq, Repr

/-- Lines 92-104: `main`.  `pipelineConfig` is the fragment reflected from the
root configuration type and `MarshalJSON` the serializer. -/
def main (hookOrder : String → List (String × jsonschema.Type_))
    (Reflect : atc.StepConfig → Schema) (pipelineConfig : Schema)
    (MarshalJSON : Schema → Except String String) : Option Outcome :=
  match stepSchema hookOrder Reflect pipelineConfig with
  | none => none
  | some schema1 =>
    match overrides schema1 with
    | none => none
    | some schema2 =>
      match MarshalJSON schema2 with
      | .error err => some { stdout := "", stderr := "error: " ++ err ++ "\n", exitCode := 1 }
      | .ok reflected => some { stdout := reflected ++ "\n", stderr := "", exitCode := 0 }

/-! ## Concrete inputs used to evaluate the definitions -/

/-- An object definition with the given properties. -/
def objectDef (props : List (String × jsonschema.Type_)) : jsonschema.Type_ :=
  { Ref := "", AnyOf := [], Type_ := "object", Items := none, Properties := some props,
    AdditionalProperties := some "false", Required := [], Extra := "" }

/-- The name of the definition that reflecting a step type produces. -/
def typeName : atc.StepConfig → String
  | .GetStep => "GetStep" | .PutStep => "PutStep" | .TaskStep => "TaskStep"
  | .SetPipelineStep => "SetPipelineStep" | .LoadVarStep => "LoadVarStep"
  | .InParallelStep => "InParallelStep" | .DoStep => "DoStep" | .TryStep => "TryStep"
  | .OnSuccessStep => "OnSuccessStep" | .OnFailureStep => "OnFailureStep"
  | .OnAbortStep => "OnAbortStep" | .OnErrorStep => "OnErrorStep"
  | .EnsureStep => "EnsureStep" | .TimeoutStep => "TimeoutStep"
  | .RetryStep => "RetryStep" | .AcrossStep => "AcrossStep"

/-- A small reflector: every step type yields a reference to its own
definition, an object with the single property `name`. -/
def sampleReflect (s : atc.StepConfig) : Schema :=
  { Type_ := refType ("#/definitions/" ++ typeName s),
    Definitions := [(typeName s, objectDef [("name", primType "string")])] }

/-- A small root fragment: `Config`, the abstract `Step` and `CheckEvery`. -/
def sampleRoot : Schema :=
  { Type_ := refType "#/definitions/Config",
    Definitions :=
      [("Config", objectDef [("jobs", arrayType (refType "#/definitions/Step"))]),
       ("Step", objectDef [("config", primType "object")]),
       ("CheckEvery", objectDef [("Interval", primType "integer")])] }

/-! ## Vocabulary of the properties -/

/-- The definition tables of the fragments reflected from a list of types, in
list order. -/
def fragmentsOf (Reflect : atc.StepConfig → Schema) (cfgs : List atc.StepConfig) :
    List Definitions :=
  cfgs.map (fun s => (Reflect s).Definitions)

/-- All the tables in processing order: the root fragment, the core step
fragments, the hook and modifier fragments. -/
def allFragments (Reflect : atc.StepConfig → Schema) (schema : Schema) : List Definitions :=
  schema.Definitions :: fragmentsOf Reflect (coreStepConfigs ++ hookAndModifierConfigs)

/-- The definition of `name` in the earliest table that has one. -/
def firstDefinition : List Definitions → String → Option jsonschema.Type_
  | [], _ => none
  | frag :: rest, name =>
    match mapGet frag name with
    | some d => some d
    | none => firstDefinition rest name

/-- Every core step definition that reaches the table has a non-nil
`Properties` ordered map (what `Properties.Set` on line 81 dereferences). -/
def variantPropertiesPresent (Reflect : atc.StepConfig → Schema) (schema : Schema) : Bool :=
  stepNames.all (fun n =>
    match firstDefinition (allFragments Reflect schema) n with
    | some d => d.Properties.isSome
    | none => true)

/-- The top-level descriptors of the core step types, in list order. -/
def coreDescriptors (Reflect : atc.StepConfig → Schema) : List jsonschema.Type_ :=
  coreStepConfigs.map (fun s => (Reflect s).Type_)

/-- The `Step` definition after lines 86-89. -/
def relaxed (d : jsonschema.Type_) : jsonschema.Type_ :=
  { d with Required := [], Properties := none, Type_ := "", AdditionalProperties := none }

/-- The keys of a map are pairwise distinct (an invariant of every Go map and
of the ordered map). -/
def NodupKeys {α : Type} (m : List (String × α)) : Prop := (mapKeys m).Nodup

/-- The ordered map after `Set` of each of the given entries, in list order
(the whole of the loop on lines 80-82 on a non-nil map). -/
def setAll (hooks props : List (String × jsonschema.Type_)) : List (String × jsonschema.Type_) :=
  hooks.foldl (fun o h => OrderedMap.Set o h.1 h.2) props

/-- A map without the entries of the given key. -/
def dropKey {α : Type} (key : String) (m : List (String × α)) : List (String × α) :=
  m.filter (fun h => decide (h.1 ≠ key))

/-- A descriptor that refers back to the abstract `Step` definition. -/
def isStepRef (t : jsonschema.Type_) : Bool :=
  t.Ref == "#/definitions/Step"

/-- An array descriptor whose items refer to a named definition. -/
def isArrayOfRef (t : jsonschema.Type_) (name : String) : Bool :=
  t.Ref == "" && t.Type_ == "array" &&
    (match t.Items with
     | some i => i.Ref == "#/definitions/" ++ name
     | none => false)

/-- A descriptor that is a bare string, integer or boolean. -/
def isPrimitive (t : jsonschema.Type_) : Bool :=
  t.Ref == "" && (t.Type_ == "string" || t.Type_ == "integer" || t.Type_ == "boolean") &&
    (match t.Items with
     | some _ => false
     | none => true)

/-- A root fragment without the abstract `Step` definition. -/
def rootWithoutStep : Schema :=
  { Type_ := refType "#/definitions/Config",
    Definitions := [("Config", objectDef []), ("CheckEvery", objectDef [])] }

/-- A root fragment without the `CheckEvery` definition. -/
def rootWithoutCheckEvery : Schema :=
  { Type_ := refType "#/definitions/Config",
    Definitions := [("Config", objectDef []), ("Step", objectDef [])] }

/-- A serializer that always succeeds. -/
def sampleMarshal (_ : Schema) : Except String String := .ok "doc"

/-- A reflector whose fragments all carry their own `Step` definition. -/
def shadowReflect (s : atc.StepConfig) : Schema :=
  { Type_ := refType ("#/definitions/" ++ typeName s),
    Definitions :=
      [("Step", objectDef [("shadow", primType "string")]),
       (typeName s, objectDef [("on_success", primType "string")])] }

/-- The fragments of `shadowReflect` with their maps visited in the opposite
order. -/
def reversedReflect (s : atc.StepConfig) : Schema :=
  { Type_ := (shadowReflect s).Type_, Definitions := (shadowReflect s).Definitions.reverse }

/-- A root fragment whose `Step` definition has no alternatives yet. -/
def emptyStepRoot : Schema :=
  { Type_ := refType "#/definitions/Config",
    Definitions := [("Step", objectDef []), ("CheckEvery", objectDef [])] }

/-- Every core step definition bound in a table has a non-nil `Properties`
ordered map, so that the loop on lines 78-84 runs through on that table. -/
def propertiesPresent (defs : Definitions) : Bool :=
  stepNames.all (fun n =>
    match mapGet defs n with
    | some d => d.Properties.isSome
    | none => true)

/-- A serializer that always fails. -/
def failingMarshal (_ : Schema) : Except String String := .error "unsupported value"

/-- A table with one core step definition, which already declares the hook
key `timeout`, next to definitions that are not core steps. -/
def variantTable : Definitions :=
  [("Step", objectDef [("config", primType "object")]),
   ("GetStep",
     objectDef [("get", primType "string"), ("timeout", primType "integer"),
       ("params", primType "object")]),
   ("OnSuccessStep", objectDef [("on_success", refType "#/definitions/Step")])]

/-! ## Lookup and assignment -/

theorem mapGet_mapSet_same {α : Type} (m : List (String × α)) (k : String) (v : α) :
    mapGet (mapSet m k v) k = some v := by
  induction m with
  | nil => simp [mapSet, mapGet]
  | cons kv rest ih =>
    obtain ⟨k0, v0⟩ := kv
    by_cases h : k0 = k
    · simp [mapSet, mapGet, h]
    · simp [mapSet, mapGet, h, ih]

theorem mapGet_mapSet_ne {α : Type} (m : List (String × α)) (k k' : String) (v : α)
    (hne : k ≠ k') : mapGet (mapSet m k v) k' = mapGet m k' := by
  induction m with
  | nil => simp [mapSet, mapGet, hne]
  | cons kv rest ih =>
    obtain ⟨k0, v0⟩ := kv
    by_cases h : k0 = k
    · subst h
      simp [mapSet, mapGet, hne]
    · simp only [mapSet, h, if_false, mapGet, ih]

theorem mapSet_of_absent {α : Type} (m : List (String × α)) (k : String) (v : α)
    (h : mapGet m k = none) : mapSet m k v = m ++ [(k, v)] := by
  induction m with
  | nil => rfl
  | cons kv rest ih =>
    obtain ⟨k0, v0⟩ := kv
    by_cases hk : k0 = k
    · simp [mapGet, hk] at h
    · simp only [mapGet, hk, if_false] at h
      simp [mapSet, hk, ih h]

theorem mapKeys_mapSet_of_present {α : Type} (m : List (String × α)) (k : String) (v d : α)
    (h : mapGet m k = some d) : mapKeys (mapSet m k v) = mapKeys m := by
  induction m with
  | nil => simp [mapGet] at h
  | cons kv rest ih =>
    obtain ⟨k0, v0⟩ := kv
    by_cases hk : k0 = k
    · simp [mapSet, mapKeys, hk]
    · simp only [mapGet, hk, if_false] at h
      have := ih h
      simp only [mapKeys] at this
      simp [mapSet, mapKeys, hk, this]

theorem mapGet_eq_none_iff {α : Type} (m : List (String × α)) (k : String) :
    mapGet m k = none ↔ k ∉ mapKeys m := by
  induction m with
  | nil => simp [mapGet, mapKeys]
  | cons kv rest ih =>
    obtain ⟨k0, v0⟩ := kv
    by_cases hk : k0 = k
    · simp [mapGet, mapKeys, hk]
    · have hk' : ¬ k = k0 := fun e => hk e.symm
      simp only [mapKeys] at ih
      simp [mapGet, mapKeys, hk, hk', ih]

theorem mapSet_mapSet_same {α : Type} (m : List (String × α)) (k : String) (v w : α) :
    mapSet (mapSet m k v) k w = mapSet m k w := by
  induction m with
  | nil => simp [mapSet]
  | cons kv rest ih =>
    obtain ⟨k0, v0⟩ := kv
    by_cases hk : k0 = k
    · simp [mapSet, hk]
    · simp [mapSet, hk, ih]

/-! ## The insert-if-absent loop -/

theorem mergeDefinitions_nil (target : Definitions) : mergeDefinitions target [] = target := rfl

theorem mergeDefinitions_cons (target : Definitions) (sub : String × jsonschema.Type_)
    (rest : Definitions) :
    mergeDefinitions target (sub :: rest) =
      mergeDefinitions
        (match mapGet target sub.1 with
          | some _ => target
          | none => mapSet target sub.1 sub.2) rest := rfl

theorem mapGet_mergeDefinitions (incoming target : Definitions) (k : String) :
    mapGet (mergeDefinitions target incoming) k =
      match mapGet target k with
      | some d => some d
      | none => mapGet incoming k := by
  induction incoming generalizing target with
  | nil => simp only [mergeDefinitions_nil, mapGet]; cases mapGet target k <;> rfl
  | cons sub rest ih =>
    obtain ⟨k0, v0⟩ := sub
    rw [mergeDefinitions_cons, ih]
    cases h0 : mapGet target k0 with
    | some d0 =>
      simp only
      cases hk : mapGet target k with
      | some d => rfl
      | none =>
        have hne : k0 ≠ k := by
          intro e; rw [e] at h0; rw [h0] at hk; cases hk
        simp [mapGet, hne]
    | none =>
      simp only
      by_cases hk : k0 = k
      · subst hk
        simp [mapGet_mapSet_same, h0, mapGet]
      · rw [mapGet_mapSet_ne _ _ _ _ hk]
        simp [mapGet, hk]

theorem mergeDefinitions_extends (incoming target : Definitions) :
    ∃ added : Definitions, mergeDefinitions target incoming = target ++ added ∧
      added.Sublist incoming := by
  induction incoming generalizing target with
  | nil => exact ⟨[], by simp [mergeDefinitions_nil], List.Sublist.refl _⟩
  | cons sub rest ih =>
    rw [mergeDefinitions_cons]
    cases h0 : mapGet target sub.1 with
    | some d0 =>
      obtain ⟨added, h1, h2⟩ := ih target
      exact ⟨added, h1, h2.cons _⟩
    | none =>
      obtain ⟨added, h1, h2⟩ := ih (mapSet target sub.1 sub.2)
      refine ⟨sub :: added, ?_, h2.cons₂ _⟩
      simp only at h1 ⊢
      rw [h1, mapSet_of_absent _ _ _ h0]
      simp

theorem mergeDefinitions_of_present (incoming target : Definitions)
    (h : ∀ sub ∈ incoming, mapGet target sub.1 ≠ none) :
    mergeDefinitions target incoming = target := by
  induction incoming with
  | nil => rfl
  | cons sub rest ih =>
    rw [mergeDefinitions_cons]
    have h0 := h sub (List.mem_cons_self _ _)
    cases h1 : mapGet target sub.1 with
    | none => exact absurd h1 h0
    | some d =>
      exact ih (fun s hs => h s (List.mem_cons_of_mem _ hs))

theorem mapGet_of_mem {α : Type} (m : List (String × α)) (kv : String × α) (h : kv ∈ m) :
    mapGet m kv.1 ≠ none := by
  rw [Ne, mapGet_eq_none_iff]
  simp only [mapKeys, not_not]
  exact List.mem_map_of_mem _ h

/-! ## The phases of `stepSchema` -/

theorem updateDef_of_present (defs : Definitions) (name : String)
    (f : jsonschema.Type_ → jsonschema.Type_) (d : jsonschema.Type_)
    (h : mapGet defs name = some d) :
    updateDef defs name f = some (mapSet defs name (f d)) := by
  simp [updateDef, h]

theorem updateDef_of_absent (defs : Definitions) (name : String)
    (f : jsonschema.Type_ → jsonschema.Type_) (h : mapGet defs name = none) :
    updateDef defs name f = none := by
  simp [updateDef, h]

theorem firstDefinition_cons (frag : Definitions) (rest : List Definitions) (k : String) :
    firstDefinition (frag :: rest) k =
      match mapGet frag k with
      | some d => some d
      | none => firstDefinition rest k := rfl

theorem firstDefinition_merge (t i : Definitions) (rest : List Definitions) (k : String) :
    firstDefinition (mergeDefinitions t i :: rest) k = firstDefinition (t :: i :: rest) k := by
  simp only [firstDefinition_cons, mapGet_mergeDefinitions]
  cases mapGet t k <;> simp

theorem firstDefinition_congr (t t' : Definitions) (rest : List Definitions) (k : String)
    (h : mapGet t k = mapGet t' k) :
    firstDefinition (t :: rest) k = firstDefinition (t' :: rest) k := by
  simp only [firstDefinition_cons, h]

theorem coreLoop_spec (Reflect : atc.StepConfig → Schema) (cfgs : List atc.StepConfig) :
    ∀ (defs : Definitions) (d : jsonschema.Type_), mapGet defs "Step" = some d →
      ∃ defs1, coreLoop Reflect cfgs defs = some defs1 ∧
        mapGet defs1 "Step" =
          some { d with AnyOf := d.AnyOf ++ cfgs.map (fun s => (Reflect s).Type_) } ∧
        ∀ k, k ≠ "Step" →
          mapGet defs1 k = firstDefinition (defs :: fragmentsOf Reflect cfgs) k := by
  induction cfgs with
  | nil =>
    intro defs d h
    refine ⟨defs, rfl, ?_, ?_⟩
    · rw [h]; cases d; simp
    · intro k _
      simp only [fragmentsOf, List.map_nil, firstDefinition_cons, firstDefinition]
      cases mapGet defs k <;> rfl
  | cons s rest ih =>
    intro defs d h
    have hStep1 : mapGet (mergeDefinitions
        (mapSet defs "Step" { d with AnyOf := d.AnyOf ++ [(Reflect s).Type_] })
        (Reflect s).Definitions) "Step" =
        some { d with AnyOf := d.AnyOf ++ [(Reflect s).Type_] } := by
      rw [mapGet_mergeDefinitions, mapGet_mapSet_same]
    obtain ⟨defs1, h1, h2, h3⟩ := ih _ _ hStep1
    refine ⟨defs1, ?_, ?_, ?_⟩
    · simp only [coreLoop, addCoreStep, updateDef_of_present _ _ _ _ h]
      exact h1
    · rw [h2]; simp
    · intro k hk
      rw [h3 k hk]
      simp only [fragmentsOf, List.map_cons]
      rw [firstDefinition_merge]
      apply firstDefinition_congr
      exact mapGet_mapSet_ne _ _ _ _ (Ne.symm hk)

theorem coreLoop_of_absent (Reflect : atc.StepConfig → Schema) (s : atc.StepConfig)
    (rest : List atc.StepConfig) (defs : Definitions) (h : mapGet defs "Step" = none) :
    coreLoop Reflect (s :: rest) defs = none := by
  simp [coreLoop, addCoreStep, updateDef_of_absent _ _ _ h]

theorem hookLoop_spec (Reflect : atc.StepConfig → Schema) (cfgs : List atc.StepConfig) :
    ∀ (defs : Definitions) (k : String),
      mapGet (hookLoop Reflect cfgs defs) k =
        firstDefinition (defs :: fragmentsOf Reflect cfgs) k := by
  induction cfgs with
  | nil =>
    intro defs k
    simp only [hookLoop, fragmentsOf, List.map_nil, firstDefinition_cons, firstDefinition]
    cases mapGet defs k <;> rfl
  | cons s rest ih =>
    intro defs k
    simp only [hookLoop, fragmentsOf, List.map_cons]
    rw [ih, firstDefinition_merge]
    rfl

theorem firstDefinition_append (a b : List Definitions) (k : String) :
    firstDefinition (a ++ b) k =
      match firstDefinition a k with
      | some d => some d
      | none => firstDefinition b k := by
  induction a with
  | nil => rfl
  | cons f rest ih =>
    simp only [List.cons_append, firstDefinition_cons, ih]
    cases mapGet f k <;> rfl

/-- The table after both merge phases, by name. -/
theorem merged_spec (Reflect : atc.StepConfig → Schema) (schema : Schema)
    (d : jsonschema.Type_) (h : mapGet schema.Definitions "Step" = some d) :
    ∃ defs1, coreLoop Reflect coreStepConfigs schema.Definitions = some defs1 ∧
      mapGet (hookLoop Reflect hookAndModifierConfigs defs1) "Step" =
        some { d with AnyOf := d.AnyOf ++ coreDescriptors Reflect } ∧
      ∀ k, k ≠ "Step" →
        mapGet (hookLoop Reflect hookAndModifierConfigs defs1) k =
          firstDefinition (allFragments Reflect schema) k := by
  obtain ⟨defs1, h1, h2, h3⟩ := coreLoop_spec Reflect coreStepConfigs schema.Definitions d h
  refine ⟨defs1, h1, ?_, ?_⟩
  · rw [hookLoop_spec, firstDefinition_cons, h2]
    rfl
  · intro k hk
    rw [hookLoop_spec, firstDefinition_cons, h3 k hk]
    simp only [allFragments, fragmentsOf, List.map_append]
    rw [firstDefinition_cons, firstDefinition_cons]
    cases mapGet schema.Definitions k with
    | some d0 => rfl
    | none =>
      simp only
      rw [firstDefinition_append]

/-- The ordered map after setting the given entries one after the other. -/
theorem setHooks_of_present (hooks : List (String × jsonschema.Type_)) :
    ∀ (d : jsonschema.Type_) (props : List (String × jsonschema.Type_)),
      d.Properties = some props →
      setHooks hooks d =
        some { d with
          Properties := some (hooks.foldl (fun o h => OrderedMap.Set o h.1 h.2) props) } := by
  induction hooks with
  | nil =>
    intro d props h
    cases d
    simp only at h
    simp [setHooks, h]
  | cons hook rest ih =>
    intro d props h
    simp only [setHooks, setHook, h, List.foldl_cons]
    rw [ih _ (OrderedMap.Set props hook.1 hook.2) rfl]

theorem setHooks_of_nil (hook : String × jsonschema.Type_)
    (rest : List (String × jsonschema.Type_)) (d : jsonschema.Type_)
    (h : d.Properties = none) : setHooks (hook :: rest) d = none := by
  simp [setHooks, setHook, h]

theorem injectStep_spec (hookOrder : String → List (String × jsonschema.Type_))
    (defs : Definitions) (n : String)
    (hp : ∀ d, mapGet defs n = some d → d.Properties ≠ none) :
    ∃ defs1, injectStep hookOrder defs n = some defs1 ∧
      (∀ k, k ≠ n → mapGet defs1 k = mapGet defs k) ∧
      mapGet defs1 n =
        match mapGet defs n with
        | some d => setHooks (hookOrder n) d
        | none => none := by
  cases h : mapGet defs n with
  | none =>
    exact ⟨defs, by simp [injectStep, h], fun _ _ => rfl, by simp [h]⟩
  | some d =>
    cases hprops : d.Properties with
    | none => exact absurd hprops (hp d h)
    | some props =>
      have hs := setHooks_of_present (hookOrder n) d props hprops
      refine ⟨mapSet defs n { d with
          Properties := some ((hookOrder n).foldl (fun o h => OrderedMap.Set o h.1 h.2) props) },
        by simp only [injectStep, h, hs], ?_, ?_⟩
      · intro k hk
        exact mapGet_mapSet_ne _ _ _ _ (Ne.symm hk)
      · rw [mapGet_mapSet_same]
        exact hs.symm

theorem injectLoop_spec (hookOrder : String → List (String × jsonschema.Type_))
    (names : List String) (hnd : names.Nodup) :
    ∀ (defs : Definitions),
      (∀ n ∈ names, ∀ d, mapGet defs n = some d → d.Properties ≠ none) →
      ∃ defs1, injectLoop hookOrder names defs = some defs1 ∧
        (∀ k, k ∉ names → mapGet defs1 k = mapGet defs k) ∧
        ∀ n ∈ names, mapGet defs1 n =
          match mapGet defs n with
          | some d => setHooks (hookOrder n) d
          | none => none := by
  induction names with
  | nil =>
    intro defs _
    exact ⟨defs, rfl, fun _ _ => rfl, fun n hn => by cases hn⟩
  | cons n rest ih =>
    intro defs hp
    have hn : n ∉ rest := (List.nodup_cons.mp hnd).1
    obtain ⟨defs1, h1, h2, h3⟩ :=
      injectStep_spec hookOrder defs n (hp n (List.mem_cons_self _ _))
    have hp1 : ∀ m ∈ rest, ∀ d, mapGet defs1 m = some d → d.Properties ≠ none := by
      intro m hm d hd
      have hne : m ≠ n := fun e => hn (e ▸ hm)
      rw [h2 m hne] at hd
      exact hp m (List.mem_cons_of_mem _ hm) d hd
    obtain ⟨defs2, g1, g2, g3⟩ := ih (List.nodup_cons.mp hnd).2 defs1 hp1
    refine ⟨defs2, by simp only [injectLoop, h1, g1], ?_, ?_⟩
    · intro k hk
      have hkn : k ≠ n := fun e => hk (e ▸ List.mem_cons_self _ _)
      have hkr : k ∉ rest := fun e => hk (List.mem_cons_of_mem _ e)
      rw [g2 k hkr, h2 k hkn]
    · intro m hm
      rcases List.mem_cons.mp hm with rfl | hm
      · rw [g2 m hn, h3]
      · have hne : m ≠ n := fun e => hn (e ▸ hm)
        rw [g3 m hm, h2 m hne]

theorem relaxStep_spec (defs : Definitions) (d : jsonschema.Type_)
    (h : mapGet defs "Step" = some d) :
    relaxStep defs = some (mapSet defs "Step" (relaxed d)) := by
  simp only [relaxStep, updateDef, h, mapGet_mapSet_same, mapSet_mapSet_same]
  rfl

theorem relaxStep_of_absent (defs : Definitions) (h : mapGet defs "Step" = none) :
    relaxStep defs = none := by
  simp [relaxStep, updateDef, h]

theorem step_not_stepName : "Step" ∉ stepNames := by decide

theorem stepNames_nodup : stepNames.Nodup := by decide

theorem variantPropertiesPresent_iff (Reflect : atc.StepConfig → Schema) (schema : Schema) :
    variantPropertiesPresent Reflect schema = true ↔
      ∀ n ∈ stepNames, ∀ d, firstDefinition (allFragments Reflect schema) n = some d →
        d.Properties ≠ none := by
  simp only [variantPropertiesPresent, List.all_eq_true]
  constructor
  · intro h n hn d hd
    have := h n hn
    rw [hd] at this
    intro e
    simp [e] at this
  · intro h n hn
    cases hd : firstDefinition (allFragments Reflect schema) n with
    | none => rfl
    | some d =>
      have := h n hn d hd
      cases hp : d.Properties with
      | none => exact absurd hp this
      | some _ => simp [hp]

/-- The whole of `stepSchema`, by name: the relaxed union under `Step`, the
injected definition under a core step name, the first definition elsewhere. -/
theorem stepSchema_spec (hookOrder : String → List (String × jsonschema.Type_))
    (Reflect : atc.StepConfig → Schema) (schema : Schema) (d : jsonschema.Type_)
    (hStep : mapGet schema.Definitions "Step" = some d)
    (hProps : variantPropertiesPresent Reflect schema = true) :
    ∃ out, stepSchema hookOrder Reflect schema = some out ∧
      out.Type_ = schema.Type_ ∧
      mapGet out.Definitions "Step" =
        some (relaxed { d with AnyOf := d.AnyOf ++ coreDescriptors Reflect }) ∧
      (∀ n ∈ stepNames, mapGet out.Definitions n =
        match firstDefinition (allFragments Reflect schema) n with
        | some v => setHooks (hookOrder n) v
        | none => none) ∧
      ∀ k, k ≠ "Step" → k ∉ stepNames →
        mapGet out.Definitions k = firstDefinition (allFragments Reflect schema) k := by
  obtain ⟨defs1, h1, h2, h3⟩ := merged_spec Reflect schema d hStep
  have hne : ∀ n ∈ stepNames, n ≠ "Step" := fun n hn e => step_not_stepName (e ▸ hn)
  have hp : ∀ n ∈ stepNames, ∀ v,
      mapGet (hookLoop Reflect hookAndModifierConfigs defs1) n = some v →
        v.Properties ≠ none := by
    intro n hn v hv
    rw [h3 n (hne n hn)] at hv
    exact (variantPropertiesPresent_iff Reflect schema).mp hProps n hn v hv
  obtain ⟨defs2, g1, g2, g3⟩ := injectLoop_spec hookOrder stepNames stepNames_nodup _ hp
  have hS2 : mapGet defs2 "Step" =
      some { d with AnyOf := d.AnyOf ++ coreDescriptors Reflect } := by
    rw [g2 "Step" step_not_stepName, h2]
  refine ⟨{ schema with Definitions := (mapSet defs2 "Step"
      (relaxed { d with AnyOf := d.AnyOf ++ coreDescriptors Reflect })) }, ?_, rfl, ?_, ?_, ?_⟩
  · simp only [stepSchema, h1, g1, relaxStep_spec defs2 _ hS2]
  · exact mapGet_mapSet_same _ _ _
  · intro n hn
    simp only
    rw [mapGet_mapSet_ne _ _ _ _ (Ne.symm (hne n hn)), g3 n hn, h3 n (hne n hn)]
  · intro k hk hkn
    simp only
    rw [mapGet_mapSet_ne _ _ _ _ (Ne.symm hk), g2 k hkn, h3 k hk]


/-! ## The union under `Step` -/

/-- C1: when the root fragment defines `Step` with an empty AnyOf, the final
`Step` definition's AnyOf is exactly the eight core descriptors, one per
variant in list order (eight entries), and has no duplicates when the eight
descriptors are pairwise distinct; definitions named `Step` in other fragments
do not interfere. -/
theorem step_union_lists_each_variant_once
    (hookOrder : String → List (String × jsonschema.Type_))
    (Reflect : atc.StepConfig → Schema) (schema : Schema) (d : jsonschema.Type_)
    (hStep : mapGet schema.Definitions "Step" = some d) (hEmpty : d.AnyOf = [])
    (hProps : variantPropertiesPresent Reflect schema = true) :
    ∃ out stepDef, stepSchema hookOrder Reflect schema = some out ∧
      mapGet out.Definitions "Step" = some stepDef ∧
      stepDef.AnyOf =
        [(Reflect .GetStep).Type_, (Reflect .PutStep).Type_, (Reflect .TaskStep).Type_,
         (Reflect .SetPipelineStep).Type_, (Reflect .LoadVarStep).Type_,
         (Reflect .InParallelStep).Type_, (Reflect .DoStep).Type_,
         (Reflect .TryStep).Type_] ∧
      stepDef.AnyOf.length = 8 ∧
      (coreStepConfigs.Pairwise (fun s s' => (Reflect s).Type_ ≠ (Reflect s').Type_) →
        stepDef.AnyOf.Nodup) := by
  obtain ⟨out, h1, _, h3, _, _⟩ := stepSchema_spec hookOrder Reflect schema d hStep hProps
  refine ⟨out, _, h1, h3, ?_, ?_, ?_⟩
  · simp [relaxed, hEmpty, coreDescriptors, coreStepConfigs]
  · simp [relaxed, hEmpty, coreDescriptors, coreStepConfigs]
  · intro hd
    simp only [relaxed, hEmpty, List.nil_append, coreDescriptors]
    exact List.pairwise_map.mpr hd

/-- C1, evaluated on fragments that each carry their own `Step` definition. -/
theorem step_union_lists_each_variant_once_witness :
    ∃ out stepDef,
      stepSchema (fun _ => hookProperties) shadowReflect emptyStepRoot = some out ∧
      mapGet out.Definitions "Step" = some stepDef ∧
      stepDef.AnyOf =
        [refType "#/definitions/GetStep", refType "#/definitions/PutStep",
         refType "#/definitions/TaskStep", refType "#/definitions/SetPipelineStep",
         refType "#/definitions/LoadVarStep", refType "#/definitions/InParallelStep",
         refType "#/definitions/DoStep", refType "#/definitions/TryStep"] ∧
      stepDef.AnyOf.length = 8 ∧ stepDef.AnyOf.Nodup := by
  obtain ⟨out, stepDef, h1, h2, h3, h4, h5⟩ :=
    step_union_lists_each_variant_once (fun _ => hookProperties) shadowReflect emptyStepRoot
      (objectDef []) rfl rfl (by decide)
  refine ⟨out, stepDef, h1, h2, h3, h4, h5 ?_⟩
  simp [coreStepConfigs, shadowReflect, typeName, refType]

/-! ## Relaxation of the placeholder -/

/-- C3: when the root fragment defines `Step`, the final `Step` definition has
nil Required, nil Properties, an empty Type and nil AdditionalProperties, and
its AnyOf still holds the union built by the loop over the core step types. -/
theorem step_placeholder_relaxed
    (hookOrder : String → List (String × jsonschema.Type_))
    (Reflect : atc.StepConfig → Schema) (schema : Schema) (d : jsonschema.Type_)
    (hStep : mapGet schema.Definitions "Step" = some d)
    (hProps : variantPropertiesPresent Reflect schema = true) :
    ∃ out stepDef, stepSchema hookOrder Reflect schema = some out ∧
      mapGet out.Definitions "Step" = some stepDef ∧
      stepDef.Required = [] ∧ stepDef.Properties = none ∧ stepDef.Type_ = "" ∧
      stepDef.AdditionalProperties = none ∧
      stepDef.AnyOf = d.AnyOf ++ coreDescriptors Reflect := by
  obtain ⟨out, h1, _, h3, _, _⟩ := stepSchema_spec hookOrder Reflect schema d hStep hProps
  exact ⟨out, _, h1, h3, rfl, rfl, rfl, rfl, rfl⟩

/-- C3, evaluated on the sample fragments. -/
theorem step_placeholder_relaxed_witness :
    ∃ out stepDef, stepSchema (fun _ => hookProperties) sampleReflect sampleRoot = some out ∧
      mapGet out.Definitions "Step" = some stepDef ∧
      stepDef.Required = [] ∧ stepDef.Properties = none ∧ stepDef.Type_ = "" ∧
      stepDef.AdditionalProperties = none ∧
      stepDef.AnyOf = [] ++ coreDescriptors sampleReflect :=
  step_placeholder_relaxed (fun _ => hookProperties) sampleReflect sampleRoot
    (objectDef [("config", primType "object")]) rfl (by decide)

/-! ## First writer wins -/

/-- C4: the insert-if-absent loop is first-writer-wins.  Looking a name up in
the merged table gives the target's definition when the target has one and
the incoming definition otherwise (so a name in neither table is in neither
result); the target's own entries are an unchanged initial segment of the
merged table, followed only by entries taken from incoming. -/
theorem merge_first_writer_wins (target incoming : Definitions) :
    (∀ k : String, mapGet (mergeDefinitions target incoming) k =
      match mapGet target k with
      | some d => some d
      | none => mapGet incoming k) ∧
    ∃ added : Definitions, mergeDefinitions target incoming = target ++ added ∧
      added.Sublist incoming :=
  ⟨mapGet_mergeDefinitions incoming target, mergeDefinitions_extends incoming target⟩

/-- C8: merging the same incoming table a second time changes nothing. -/
theorem merge_idempotent (t i : Definitions) :
    mergeDefinitions (mergeDefinitions t i) i = mergeDefinitions t i := by
  apply mergeDefinitions_of_present
  intro sub hsub
  rw [mapGet_mergeDefinitions]
  cases h : mapGet t sub.1 with
  | some d => simp
  | none => exact mapGet_of_mem i sub hsub

/-! ## The manual overrides -/

/-- C9: on a document whose table has `CheckEvery`, the overrides set the root
AdditionalProperties to `true` and the Type of `CheckEvery` to `string`, and
change nothing else: the other root fields, the other fields of `CheckEvery`,
every other definition and the keys of the table stay as they were. -/
theorem overrides_change_two_fields (schema : Schema) (d : jsonschema.Type_)
    (h : mapGet schema.Definitions "CheckEvery" = some d) :
    ∃ out, overrides schema = some out ∧
      out.Type_ = { schema.Type_ with AdditionalProperties := some "true" } ∧
      mapGet out.Definitions "CheckEvery" = some { d with Type_ := "string" } ∧
      (∀ k, k ≠ "CheckEvery" → mapGet out.Definitions k = mapGet schema.Definitions k) ∧
      mapKeys out.Definitions = mapKeys schema.Definitions := by
  refine ⟨{ Type_ := { schema.Type_ with AdditionalProperties := some "true" },
            Definitions := mapSet schema.Definitions "CheckEvery" { d with Type_ := "string" } },
    ?_, rfl, ?_, ?_, ?_⟩
  · simp [overrides, updateDef, h]
  · exact mapGet_mapSet_same _ _ _
  · intro k hk
    exact mapGet_mapSet_ne _ _ _ _ (Ne.symm hk)
  · exact mapKeys_mapSet_of_present _ _ _ d h

/-- C9, evaluated on the sample root fragment. -/
theorem overrides_change_two_fields_witness :
    ∃ out, overrides sampleRoot = some out ∧
      out.Type_ = { sampleRoot.Type_ with AdditionalProperties := some "true" } ∧
      mapGet out.Definitions "CheckEvery" =
        some { objectDef [("Interval", primType "integer")] with Type_ := "string" } ∧
      (∀ k, k ≠ "CheckEvery" → mapGet out.Definitions k = mapGet sampleRoot.Definitions k) ∧
      mapKeys out.Definitions = mapKeys sampleRoot.Definitions :=
  overrides_change_two_fields sampleRoot (objectDef [("Interval", primType "integer")]) rfl

/-! ## Missing definitions -/

/-- C7 as stated fails: on a root fragment without `Step` the run of
`stepSchema` does not complete, and on a table without `CheckEvery` the
override of `main` does not complete. -/
theorem missing_definitions_counterexample :
    mapGet rootWithoutStep.Definitions "Step" = none ∧
    stepSchema (fun _ => hookProperties) sampleReflect rootWithoutStep = none ∧
    mapGet rootWithoutCheckEvery.Definitions "CheckEvery" = none ∧
    overrides rootWithoutCheckEvery = none ∧
    main (fun _ => hookProperties) sampleReflect rootWithoutCheckEvery sampleMarshal = none :=
  ⟨rfl, rfl, rfl, rfl, rfl⟩

/-- C7 amended: a root fragment without `Step` makes `stepSchema` (and with it
`main`) stop on a nil dereference at the first union append, and a composed
table without `CheckEvery` makes the string-type override of `main` stop the
same way, so that nothing is serialized. -/
theorem missing_definitions_fault
    (hookOrder : String → List (String × jsonschema.Type_))
    (Reflect : atc.StepConfig → Schema) (schema : Schema)
    (MarshalJSON : Schema → Except String String) :
    (mapGet schema.Definitions "Step" = none →
      stepSchema hookOrder Reflect schema = none ∧
      main hookOrder Reflect schema MarshalJSON = none) ∧
    (∀ composed, stepSchema hookOrder Reflect schema = some composed →
      mapGet composed.Definitions "CheckEvery" = none →
      overrides composed = none ∧ main hookOrder Reflect schema MarshalJSON = none) := by
  constructor
  · intro h
    have h1 : stepSchema hookOrder Reflect schema = none := by
      simp only [stepSchema, coreStepConfigs, coreLoop_of_absent _ _ _ _ h]
    exact ⟨h1, by simp only [main, h1]⟩
  · intro composed hc h
    have h1 : overrides composed = none := by
      simp [overrides, updateDef, h]
    exact ⟨h1, by simp only [main, hc, h1]⟩

/-- C7 amended, evaluated on a root without `Step` and on one without
`CheckEvery`. -/
theorem missing_definitions_fault_witness :
    (stepSchema (fun _ => hookProperties) sampleReflect rootWithoutStep = none ∧
      main (fun _ => hookProperties) sampleReflect rootWithoutStep sampleMarshal = none) ∧
    (∃ composed,
      stepSchema (fun _ => hookProperties) sampleReflect rootWithoutCheckEvery = some composed ∧
      overrides composed = none ∧
      main (fun _ => hookProperties) sampleReflect rootWithoutCheckEvery sampleMarshal = none) := by
  refine ⟨(missing_definitions_fault (fun _ => hookProperties) sampleReflect rootWithoutStep
    sampleMarshal).1 rfl, ?_⟩
  obtain ⟨composed, hc, _, _, _, h5⟩ :=
    stepSchema_spec (fun _ => hookProperties) sampleReflect rootWithoutCheckEvery
      (objectDef []) rfl (by decide)
  have hk : mapGet composed.Definitions "CheckEvery" = none := by
    rw [h5 "CheckEvery" (by decide) (by decide)]
    rfl
  exact ⟨composed, hc, (missing_definitions_fault (fun _ => hookProperties) sampleReflect
    rootWithoutCheckEvery sampleMarshal).2 composed hc hk⟩

/-! ## The fixed hook types -/

/-- C10 as stated fails: the self-referential hook types are not four and the
primitive ones are not four. -/
theorem hook_kinds_counterexample :
    ¬ ((hookProperties.filter (fun h => isStepRef h.2)).length = 4 ∧
       (hookProperties.filter (fun h => isArrayOfRef h.2 "AcrossVarConfig")).length = 1 ∧
       (hookProperties.filter (fun h => isPrimitive h.2)).length = 4) := by
  decide

/-- C10 amended: of the nine fixed hook types five refer back to `Step`
(on_success, on_failure, on_abort, on_error, ensure), one is an array whose
items refer to `AcrossVarConfig` (across), and three are primitive (timeout a
string, attempts an integer, fail_fast a boolean). -/
theorem hook_kinds :
    hookProperties.length = 9 ∧
    (hookProperties.filter (fun h => isStepRef h.2)).map Prod.fst =
      ["on_success", "on_failure", "on_abort", "on_error", "ensure"] ∧
    (hookProperties.filter (fun h => isArrayOfRef h.2 "AcrossVarConfig")).map Prod.fst =
      ["across"] ∧
    (hookProperties.filter (fun h => isPrimitive h.2)).map (fun h => (h.1, h.2.Type_)) =
      [("timeout", "string"), ("attempts", "integer"), ("fail_fast", "boolean")] := by
  decide

/-! ## Hook injection -/

theorem hookProperties_nodupKeys : NodupKeys hookProperties := by
  simp only [NodupKeys, mapKeys, hookProperties, List.map_cons, List.map_nil]
  decide

theorem nodupKeys_of_perm {α : Type} (a b : List (String × α)) (h : a.Perm b)
    (hb : NodupKeys b) : NodupKeys a :=
  ((h.map Prod.fst).nodup_iff).mpr hb

/-- The final table binds exactly the names that some fragment defines. -/
theorem stepSchema_keys (hookOrder : String → List (String × jsonschema.Type_))
    (Reflect : atc.StepConfig → Schema) (schema out : Schema) (d : jsonschema.Type_)
    (hStep : mapGet schema.Definitions "Step" = some d)
    (hProps : variantPropertiesPresent Reflect schema = true)
    (hout : stepSchema hookOrder Reflect schema = some out) (k : String) :
    mapGet out.Definitions k = none ↔ firstDefinition (allFragments Reflect schema) k = none := by
  obtain ⟨out1, h1, _, h3, h4, h5⟩ := stepSchema_spec hookOrder Reflect schema d hStep hProps
  rw [hout] at h1
  cases Option.some.inj h1
  by_cases hk : k = "Step"
  · subst hk
    simp [h3, allFragments, firstDefinition_cons, hStep]
  · by_cases hn : k ∈ stepNames
    · rw [h4 k hn]
      cases hf : firstDefinition (allFragments Reflect schema) k with
      | none => simp
      | some v =>
        have hv := (variantPropertiesPresent_iff Reflect schema).mp hProps k hn v hf
        cases hp : v.Properties with
        | none => exact absurd hp hv
        | some props => simp [setHooks_of_present _ v props hp]
    · rw [h5 k hk hn]

theorem firstDefinition_ne_none (frags : List Definitions) (frag : Definitions)
    (hf : frag ∈ frags) (k : String) (hk : mapGet frag k ≠ none) :
    firstDefinition frags k ≠ none := by
  induction frags with
  | nil => cases hf
  | cons f rest ih =>
    rw [firstDefinition_cons]
    cases hg : mapGet f k with
    | some d => simp
    | none =>
      rcases List.mem_cons.mp hf with rfl | hm
      · exact absurd hg hk
      · exact ih hm

/-- C5: every definition name of every hook or modifier fragment is bound in
the final table, the hook-merging loop leaves a table's `Step` entry as it
was, and the final `Step.AnyOf` is the root's AnyOf followed by the eight core
descriptors only. -/
theorem hooks_contribute_definitions_only
    (hookOrder : String → List (String × jsonschema.Type_))
    (Reflect : atc.StepConfig → Schema) (schema : Schema) (d : jsonschema.Type_)
    (hStep : mapGet schema.Definitions "Step" = some d)
    (hProps : variantPropertiesPresent Reflect schema = true) :
    ∃ out stepDef, stepSchema hookOrder Reflect schema = some out ∧
      (∀ s ∈ hookAndModifierConfigs, ∀ sub ∈ (Reflect s).Definitions,
        mapGet out.Definitions sub.1 ≠ none) ∧
      (∀ defs stepDef0, mapGet defs "Step" = some stepDef0 →
        mapGet (hookLoop Reflect hookAndModifierConfigs defs) "Step" = some stepDef0) ∧
      mapGet out.Definitions "Step" = some stepDef ∧
      stepDef.AnyOf = d.AnyOf ++ coreDescriptors Reflect := by
  obtain ⟨out, h1, _, h3, _, _⟩ := stepSchema_spec hookOrder Reflect schema d hStep hProps
  refine ⟨out, _, h1, ?_, ?_, h3, rfl⟩
  · intro s hs sub hsub hnone
    have hk := (stepSchema_keys hookOrder Reflect schema out d hStep hProps h1 sub.1).mp hnone
    refine firstDefinition_ne_none _ (Reflect s).Definitions ?_ sub.1
      (mapGet_of_mem _ sub hsub) hk
    simp only [allFragments, fragmentsOf, List.map_append, List.mem_cons, List.mem_append,
      List.mem_map]
    exact Or.inr (Or.inr ⟨s, hs, rfl⟩)
  · intro defs stepDef0 h0
    rw [hookLoop_spec, firstDefinition_cons, h0]

/-- C5, evaluated on the sample fragments: `AcrossStep` comes from a modifier
fragment only and is bound in the final table, while the union has the eight
core descriptors. -/
theorem hooks_contribute_definitions_only_witness :
    ∃ out stepDef, stepSchema (fun _ => hookProperties) sampleReflect sampleRoot = some out ∧
      mapGet out.Definitions "AcrossStep" ≠ none ∧
      mapGet (hookLoop sampleReflect hookAndModifierConfigs sampleRoot.Definitions) "Step" =
        some (objectDef [("config", primType "object")]) ∧
      mapGet out.Definitions "Step" = some stepDef ∧
      stepDef.AnyOf = [] ++ coreDescriptors sampleReflect := by
  obtain ⟨out, stepDef, h1, h2, h3, h4, h5⟩ :=
    hooks_contribute_definitions_only (fun _ => hookProperties) sampleReflect sampleRoot
      (objectDef [("config", primType "object")]) rfl (by decide)
  exact ⟨out, stepDef, h1,
    h2 .AcrossStep (by decide) ("AcrossStep", objectDef [("name", primType "string")])
      (by simp [sampleReflect, typeName]),
    h3 sampleRoot.Definitions _ rfl, h4, h5⟩

/-! ## The order in which maps are visited -/

theorem mapGet_perm {α : Type} (a b : List (String × α)) (h : a.Perm b) (hnd : NodupKeys a)
    (k : String) : mapGet a k = mapGet b k := by
  induction h with
  | nil => rfl
  | cons x _ ih =>
    obtain ⟨k0, v0⟩ := x
    simp only [NodupKeys, mapKeys, List.map_cons, List.nodup_cons] at hnd
    simp only [mapGet, ih hnd.2]
  | swap x y l =>
    obtain ⟨kx, vx⟩ := x
    obtain ⟨ky, vy⟩ := y
    simp only [NodupKeys, mapKeys, List.map_cons, List.nodup_cons, List.mem_cons, not_or] at hnd
    simp only [mapGet]
    by_cases h1 : ky = k
    · have h2 : ¬ kx = k := fun e => hnd.1.1 (h1.trans e.symm)
      simp [h1, h2]
    · simp [h1]
  | trans h1 _ ih1 ih2 =>
    rw [ih1 hnd, ih2 (nodupKeys_of_perm _ _ h1.symm hnd)]

theorem nodupKeys_cons {α : Type} (kv : String × α) (m : List (String × α)) :
    NodupKeys (kv :: m) ↔ kv.1 ∉ mapKeys m ∧ NodupKeys m := by
  simp [NodupKeys, mapKeys]

theorem setAll_nil (props : List (String × jsonschema.Type_)) : setAll [] props = props := rfl

theorem setAll_cons (h : String × jsonschema.Type_) (hs props : List (String × jsonschema.Type_)) :
    setAll (h :: hs) props = setAll hs (mapSet props h.1 h.2) := rfl

theorem dropKey_cons_same {α : Type} (k : String) (v : α) (m : List (String × α)) :
    dropKey k ((k, v) :: m) = dropKey k m := by
  simp [dropKey]

theorem dropKey_cons_ne {α : Type} (k k0 : String) (v : α) (m : List (String × α))
    (h : k0 ≠ k) : dropKey k ((k0, v) :: m) = (k0, v) :: dropKey k m := by
  simp [dropKey, h]

theorem dropKey_of_absent {α : Type} (k : String) (m : List (String × α))
    (h : k ∉ mapKeys m) : dropKey k m = m := by
  induction m with
  | nil => rfl
  | cons kv rest ih =>
    obtain ⟨k0, v0⟩ := kv
    simp only [mapKeys, List.map_cons, List.mem_cons, not_or] at h
    rw [dropKey_cons_ne _ _ _ _ (Ne.symm h.1), ih h.2]

theorem dropKey_sublist {α : Type} (k : String) (m : List (String × α)) :
    (dropKey k m).Sublist m := List.filter_sublist m

theorem nodupKeys_dropKey {α : Type} (k : String) (m : List (String × α))
    (h : NodupKeys m) : NodupKeys (dropKey k m) :=
  List.Nodup.sublist ((dropKey_sublist k m).map Prod.fst) h

theorem dropKey_perm {α : Type} (k : String) (a b : List (String × α)) (h : a.Perm b) :
    (dropKey k a).Perm (dropKey k b) := h.filter _

theorem setAll_of_absent (hooks : List (String × jsonschema.Type_))
    (hnd : NodupKeys hooks) :
    ∀ props : List (String × jsonschema.Type_),
      (∀ h ∈ hooks, mapGet props h.1 = none) → setAll hooks props = props ++ hooks := by
  induction hooks with
  | nil => intro props _; simp [setAll_nil]
  | cons h0 rest ih =>
    intro props habs
    have hnd' := (nodupKeys_cons h0 rest).mp hnd
    have h0abs := habs h0 (List.mem_cons_self _ _)
    rw [setAll_cons, ih hnd'.2]
    · rw [mapSet_of_absent _ _ _ h0abs]
      simp
    · intro h hm
      have hne : h0.1 ≠ h.1 := by
        intro e
        apply hnd'.1
        rw [e]
        exact List.mem_map_of_mem _ hm
      rw [mapGet_mapSet_ne _ _ _ _ hne]
      exact habs h (List.mem_cons_of_mem _ hm)

/-- Setting hook entries on an ordered map, seen from the head of the map: the
head keeps its place and takes the hook value when there is one. -/
theorem setAll_cons_props (hooks : List (String × jsonschema.Type_)) (hnd : NodupKeys hooks)
    (k : String) :
    ∀ (v : jsonschema.Type_) (rest : List (String × jsonschema.Type_)),
      setAll hooks ((k, v) :: rest) =
        match mapGet hooks k with
        | some t => (k, t) :: setAll (dropKey k hooks) rest
        | none => (k, v) :: setAll hooks rest := by
  induction hooks with
  | nil => intro v rest; rfl
  | cons h0 hs ih =>
    intro v rest
    obtain ⟨k0, t0⟩ := h0
    have hnd' := (nodupKeys_cons (k0, t0) hs).mp hnd
    by_cases hk : k = k0
    · subst hk
      have hk0 : mapGet hs k = none := (mapGet_eq_none_iff hs k).mpr hnd'.1
      rw [setAll_cons, dropKey_cons_same, dropKey_of_absent k hs hnd'.1]
      simp only [mapSet, if_true, mapGet]
      rw [ih hnd'.2, hk0]
    · have hk' : ¬ k0 = k := fun e => hk e.symm
      rw [setAll_cons, dropKey_cons_ne _ _ _ _ hk']
      simp only [mapSet, hk, if_false, mapGet, hk']
      rw [ih hnd'.2]
      cases mapGet hs k with
      | none => rfl
      | some t => rfl

/-- Two visiting orders of the same hook entries give ordered maps with a
common initial part, as long as the original map, followed by the same new
entries up to order. -/
theorem setAll_perm (props : List (String × jsonschema.Type_)) :
    ∀ (hs1 hs2 : List (String × jsonschema.Type_)), hs1.Perm hs2 → NodupKeys hs1 →
      ∃ pre suf1 suf2,
        setAll hs1 props = pre ++ suf1 ∧ setAll hs2 props = pre ++ suf2 ∧
        mapKeys pre = mapKeys props ∧ suf1.Perm suf2 ∧ suf1.Sublist hs1 := by
  induction props with
  | nil =>
    intro hs1 hs2 hp hnd
    refine ⟨[], hs1, hs2, ?_, ?_, rfl, hp, List.Sublist.refl _⟩
    · rw [setAll_of_absent hs1 hnd [] (fun _ _ => rfl)]
    · rw [setAll_of_absent hs2 (nodupKeys_of_perm _ _ hp.symm hnd) [] (fun _ _ => rfl)]
  | cons kv rest ih =>
    intro hs1 hs2 hp hnd
    obtain ⟨k, v⟩ := kv
    have hnd2 := nodupKeys_of_perm _ _ hp.symm hnd
    rw [setAll_cons_props hs1 hnd k v rest, setAll_cons_props hs2 hnd2 k v rest,
      ← mapGet_perm hs1 hs2 hp hnd k]
    cases mapGet hs1 k with
    | none =>
      obtain ⟨pre, suf1, suf2, e1, e2, e3, e4, e5⟩ := ih hs1 hs2 hp hnd
      refine ⟨(k, v) :: pre, suf1, suf2, ?_, ?_, ?_, e4, e5⟩
      · simp only [e1, List.cons_append]
      · simp only [e2, List.cons_append]
      · simp only [mapKeys, List.map_cons] at e3 ⊢
        rw [e3]
    | some t =>
      obtain ⟨pre, suf1, suf2, e1, e2, e3, e4, e5⟩ :=
        ih (dropKey k hs1) (dropKey k hs2) (dropKey_perm k _ _ hp) (nodupKeys_dropKey _ _ hnd)
      refine ⟨(k, t) :: pre, suf1, suf2, ?_, ?_, ?_, e4, e5.trans (dropKey_sublist _ _)⟩
      · simp only [e1, List.cons_append]
      · simp only [e2, List.cons_append]
      · simp only [mapKeys, List.map_cons] at e3 ⊢
        rw [e3]

theorem injectStep_frame (hookOrder : String → List (String × jsonschema.Type_))
    (defs defs1 : Definitions) (m : String) (h : injectStep hookOrder defs m = some defs1)
    (k : String) (hk : k ≠ m) : mapGet defs1 k = mapGet defs k := by
  unfold injectStep at h
  cases hm : mapGet defs m with
  | none =>
    simp only [hm, Option.some.injEq] at h
    rw [← h]
  | some v =>
    simp only [hm] at h
    cases hs : setHooks (hookOrder m) v with
    | none => simp [hs] at h
    | some v1 =>
      simp only [hs, Option.some.injEq] at h
      rw [← h]
      exact mapGet_mapSet_ne _ _ _ _ (Ne.symm hk)

theorem injectLoop_of_nil (hookOrder : String → List (String × jsonschema.Type_))
    (hne : ∀ n, hookOrder n ≠ []) (names : List String) :
    ∀ defs : Definitions,
      (∃ n ∈ names, ∃ v, mapGet defs n = some v ∧ v.Properties = none) →
      injectLoop hookOrder names defs = none := by
  induction names with
  | nil =>
    intro defs h
    obtain ⟨n, hn, _⟩ := h
    cases hn
  | cons m rest ih =>
    intro defs h
    obtain ⟨n, hn, v, hv, hp⟩ := h
    cases hstep : injectStep hookOrder defs m with
    | none => simp [injectLoop, hstep]
    | some defs1 =>
      simp only [injectLoop, hstep]
      by_cases hnm : n = m
      · subst hnm
        exfalso
        cases ho : hookOrder n with
        | nil => exact hne n ho
        | cons h0 tl =>
          simp [injectStep, hv, ho, setHooks_of_nil h0 tl v hp] at hstep
      · apply ih
        refine ⟨n, (List.mem_cons.mp hn).resolve_left hnm, v, ?_, hp⟩
        rw [injectStep_frame hookOrder defs defs1 m hstep n hnm]
        exact hv

theorem perm_ne_nil (hooks : List (String × jsonschema.Type_))
    (h : hooks.Perm hookProperties) : hooks ≠ [] := by
  intro e
  rw [e] at h
  have := h.length_eq
  simp [hookProperties] at this

/-- A run completes exactly when the root fragment defines `Step` and every
core step definition that reaches the table has a Properties map. -/
theorem stepSchema_eq_none_iff (hookOrder : String → List (String × jsonschema.Type_))
    (Reflect : atc.StepConfig → Schema) (schema : Schema)
    (hOrder : ∀ n, (hookOrder n).Perm hookProperties) :
    stepSchema hookOrder Reflect schema = none ↔
      (mapGet schema.Definitions "Step" = none ∨
        variantPropertiesPresent Reflect schema = false) := by
  constructor
  · intro h
    cases hS : mapGet schema.Definitions "Step" with
    | none => exact Or.inl rfl
    | some d =>
      cases hP : variantPropertiesPresent Reflect schema with
      | false => exact Or.inr rfl
      | true =>
        obtain ⟨out, h1, _⟩ := stepSchema_spec hookOrder Reflect schema d hS hP
        rw [h] at h1
        cases h1
  · intro h
    cases hS : mapGet schema.Definitions "Step" with
    | none => simp only [stepSchema, coreStepConfigs, coreLoop_of_absent _ _ _ _ hS]
    | some d =>
      have hP : variantPropertiesPresent Reflect schema = false := by
        rcases h with h | h
        · rw [hS] at h; cases h
        · exact h
      obtain ⟨defs1, h1, _, h3⟩ := merged_spec Reflect schema d hS
      have hex : ∃ n ∈ stepNames, ∃ v,
          mapGet (hookLoop Reflect hookAndModifierConfigs defs1) n = some v ∧
            v.Properties = none := by
        by_contra hcon
        have : variantPropertiesPresent Reflect schema = true := by
          rw [variantPropertiesPresent_iff]
          intro n hn v hv hp
          apply hcon
          refine ⟨n, hn, v, ?_, hp⟩
          rw [h3 n (fun e => step_not_stepName (e ▸ hn))]
          exact hv
        rw [hP] at this
        cases this
      simp only [stepSchema, h1,
        injectLoop_of_nil hookOrder (fun n => perm_ne_nil _ (hOrder n)) stepNames _ hex]

theorem firstDefinition_fragments_congr (R1 R2 : atc.StepConfig → Schema)
    (h : ∀ s k, mapGet (R1 s).Definitions k = mapGet (R2 s).Definitions k)
    (cfgs : List atc.StepConfig) (k : String) :
    firstDefinition (fragmentsOf R1 cfgs) k = firstDefinition (fragmentsOf R2 cfgs) k := by
  induction cfgs with
  | nil => rfl
  | cons s rest ih =>
    simp only [fragmentsOf, List.map_cons, firstDefinition_cons] at ih ⊢
    rw [h s k, ih]

theorem allFragments_congr (R1 R2 : atc.StepConfig → Schema) (schema : Schema)
    (h : ∀ s k, mapGet (R1 s).Definitions k = mapGet (R2 s).Definitions k) (k : String) :
    firstDefinition (allFragments R1 schema) k = firstDefinition (allFragments R2 schema) k := by
  simp only [allFragments, firstDefinition_cons,
    firstDefinition_fragments_congr R1 R2 h (coreStepConfigs ++ hookAndModifierConfigs) k]

theorem variantPropertiesPresent_congr (R1 R2 : atc.StepConfig → Schema) (schema : Schema)
    (h : ∀ s k, mapGet (R1 s).Definitions k = mapGet (R2 s).Definitions k) :
    variantPropertiesPresent R1 schema = variantPropertiesPresent R2 schema := by
  simp only [variantPropertiesPresent, allFragments_congr R1 R2 schema h]

theorem coreDescriptors_congr (R1 R2 : atc.StepConfig → Schema)
    (h : ∀ s, (R1 s).Type_ = (R2 s).Type_) : coreDescriptors R1 = coreDescriptors R2 := by
  simp only [coreDescriptors, h]

/-- C6 as stated fails: on the same reflected fragments, visiting the hook
entries in source order and in reverse order gives different documents. -/
theorem composition_order_counterexample :
    hookProperties.reverse.Perm hookProperties ∧
    stepSchema (fun _ => hookProperties) sampleReflect sampleRoot ≠
      stepSchema (fun _ => hookProperties.reverse) sampleReflect sampleRoot := by
  refine ⟨List.reverse_perm _, ?_⟩
  intro h
  have h1 : ((stepSchema (fun _ => hookProperties) sampleReflect sampleRoot).bind
        (fun s => mapGet s.Definitions "GetStep")).bind (fun v => v.Properties.map mapKeys) =
      ((stepSchema (fun _ => hookProperties.reverse) sampleReflect sampleRoot).bind
        (fun s => mapGet s.Definitions "GetStep")).bind (fun v => v.Properties.map mapKeys) := by
    rw [h]
  exact absurd h1 (by decide)

/-! ## What injection leaves alone -/

theorem propertiesPresent_iff (defs : Definitions) :
    propertiesPresent defs = true ↔
      ∀ n ∈ stepNames, ∀ d, mapGet defs n = some d → d.Properties ≠ none := by
  simp only [propertiesPresent, List.all_eq_true]
  constructor
  · intro h n hn d hd
    have := h n hn
    rw [hd] at this
    intro e
    simp [e] at this
  · intro h n hn
    cases hd : mapGet defs n with
    | none => rfl
    | some d =>
      have := h n hn d hd
      cases hp : d.Properties with
      | none => exact absurd hp this
      | some _ => simp [hp]

theorem injectStep_of_absent (hookOrder : String → List (String × jsonschema.Type_))
    (defs : Definitions) (n : String) (h : mapGet defs n = none) :
    injectStep hookOrder defs n = some defs := by
  simp [injectStep, h]

theorem injectStep_keys (hookOrder : String → List (String × jsonschema.Type_))
    (defs defs1 : Definitions) (m : String) (h : injectStep hookOrder defs m = some defs1) :
    mapKeys defs1 = mapKeys defs := by
  unfold injectStep at h
  cases hm : mapGet defs m with
  | none =>
    simp only [hm, Option.some.injEq] at h
    rw [← h]
  | some v =>
    simp only [hm] at h
    cases hs : setHooks (hookOrder m) v with
    | none => simp [hs] at h
    | some v1 =>
      simp only [hs, Option.some.injEq] at h
      rw [← h]
      exact mapKeys_mapSet_of_present _ _ _ v hm

theorem injectLoop_frame (hookOrder : String → List (String × jsonschema.Type_))
    (names : List String) :
    ∀ defs defs1 : Definitions, injectLoop hookOrder names defs = some defs1 →
      mapKeys defs1 = mapKeys defs ∧ ∀ k, k ∉ names → mapGet defs1 k = mapGet defs k := by
  induction names with
  | nil =>
    intro defs defs1 h
    simp only [injectLoop, Option.some.injEq] at h
    subst h
    exact ⟨rfl, fun _ _ => rfl⟩
  | cons m rest ih =>
    intro defs defs1 h
    cases hstep : injectStep hookOrder defs m with
    | none => simp [injectLoop, hstep] at h
    | some defs0 =>
      simp only [injectLoop, hstep] at h
      obtain ⟨g1, g2⟩ := ih defs0 defs1 h
      refine ⟨g1.trans (injectStep_keys hookOrder defs defs0 m hstep), ?_⟩
      intro k hk
      have hkm : k ≠ m := fun e => hk (e ▸ List.mem_cons_self _ _)
      have hkr : k ∉ rest := fun e => hk (List.mem_cons_of_mem _ e)
      rw [g2 k hkr, injectStep_frame hookOrder defs defs0 m hstep k hkm]

/-- C11: on every table on which the injection loop runs through, it keeps the
list of table keys as it was (a name that is absent stays absent, no name is
dropped), it leaves the definition under every name that is not one of the
eight core step names as it was (among them `Step` and the hook and modifier
definitions), and the iteration for an absent core step name changes nothing. -/
theorem injection_touches_only_core_steps
    (hookOrder : String → List (String × jsonschema.Type_)) (defs : Definitions)
    (hp : propertiesPresent defs = true) :
    ∃ defs1, injectLoop hookOrder stepNames defs = some defs1 ∧
      mapKeys defs1 = mapKeys defs ∧
      (∀ k, mapGet defs1 k = none ↔ mapGet defs k = none) ∧
      (∀ k, k ∉ stepNames → mapGet defs1 k = mapGet defs k) ∧
      mapGet defs1 "Step" = mapGet defs "Step" ∧
      ∀ (t : Definitions) (n : String), mapGet t n = none →
        injectStep hookOrder t n = some t := by
  obtain ⟨defs1, h1, _, _⟩ :=
    injectLoop_spec hookOrder stepNames stepNames_nodup defs ((propertiesPresent_iff defs).mp hp)
  obtain ⟨g1, g2⟩ := injectLoop_frame hookOrder stepNames defs defs1 h1
  refine ⟨defs1, h1, g1, ?_, g2, g2 "Step" step_not_stepName, ?_⟩
  · intro k
    rw [mapGet_eq_none_iff, mapGet_eq_none_iff, g1]
  · intro t n hn
    exact injectStep_of_absent hookOrder t n hn

/-- C11, evaluated on a table with one core step definition and seven absent
ones. -/
theorem injection_touches_only_core_steps_witness :
    ∃ defs1, injectLoop (fun _ => hookProperties) stepNames variantTable = some defs1 ∧
      mapKeys defs1 = mapKeys variantTable ∧
      (∀ k, mapGet defs1 k = none ↔ mapGet variantTable k = none) ∧
      (∀ k, k ∉ stepNames → mapGet defs1 k = mapGet variantTable k) ∧
      mapGet defs1 "Step" = mapGet variantTable "Step" ∧
      injectStep (fun _ => hookProperties) variantTable "PutStep" = some variantTable := by
  obtain ⟨defs1, h1, h2, h3, h4, h5, h6⟩ :=
    injection_touches_only_core_steps (fun _ => hookProperties) variantTable (by decide)
  exact ⟨defs1, h1, h2, h3, h4, h5, h6 variantTable "PutStep" rfl⟩

/-! ## The outcome of a run -/

theorem error_message_ne_empty (err : String) : "error: " ++ err ++ "\n" ≠ "" := by
  intro h
  have := congrArg String.length h
  simp only [String.length_append] at this
  have h1 : "\n".length = 1 := by decide
  have h2 : "".length = 0 := by decide
  omega

/-- C12: when the document is composed and overridden, `main` is decided by the
serializer.  If serialization fails, standard output stays empty, standard
error gets the message `error: ` followed by the error and a newline, and the
exit status is 1; if it succeeds, standard output is the serialized text
followed by one newline, standard error stays empty and the exit status is 0. -/
theorem main_follows_serializer
    (hookOrder : String → List (String × jsonschema.Type_))
    (Reflect : atc.StepConfig → Schema) (pipelineConfig final : Schema)
    (MarshalJSON : Schema → Except String String)
    (h : (stepSchema hookOrder Reflect pipelineConfig).bind overrides = some final) :
    (∀ err, MarshalJSON final = .error err →
      ∃ o, main hookOrder Reflect pipelineConfig MarshalJSON = some o ∧
        o.stdout = "" ∧ o.stderr = "error: " ++ err ++ "\n" ∧ o.stderr ≠ "" ∧
        o.exitCode = 1 ∧ o.exitCode ≠ 0) ∧
    (∀ reflected, MarshalJSON final = .ok reflected →
      ∃ o, main hookOrder Reflect pipelineConfig MarshalJSON = some o ∧
        o.stdout = reflected ++ "\n" ∧ o.stderr = "" ∧ o.exitCode = 0) := by
  cases h1 : stepSchema hookOrder Reflect pipelineConfig with
  | none => simp [h1] at h
  | some composed =>
    simp only [h1, Option.some_bind] at h
    constructor
    · intro err he
      refine ⟨{ stdout := "", stderr := "error: " ++ err ++ "\n", exitCode := 1 }, ?_, rfl, rfl,
        error_message_ne_empty err, rfl, Nat.one_ne_zero⟩
      simp only [main, h1, h, he]
    · intro reflected hr
      refine ⟨{ stdout := reflected ++ "\n", stderr := "", exitCode := 0 }, ?_, rfl, rfl, rfl⟩
      simp only [main, h1, h, hr]

/-- C12, evaluated on the sample fragments with a failing and with a succeeding
serializer. -/
theorem main_follows_serializer_witness :
    (∃ o, main (fun _ => hookProperties) sampleReflect sampleRoot failingMarshal = some o ∧
      o.stdout = "" ∧ o.stderr = "error: " ++ "unsupported value" ++ "\n" ∧ o.stderr ≠ "" ∧
      o.exitCode = 1 ∧ o.exitCode ≠ 0) ∧
    (∃ o, main (fun _ => hookProperties) sampleReflect sampleRoot sampleMarshal = some o ∧
      o.stdout = "doc" ++ "\n" ∧ o.stderr = "" ∧ o.exitCode = 0) := by
  cases h : (stepSchema (fun _ => hookProperties) sampleReflect sampleRoot).bind overrides with
  | none =>
    have hs : ((stepSchema (fun _ => hookProperties) sampleReflect sampleRoot).bind
        overrides).isSome = true := rfl
    rw [h] at hs
    cases hs
  | some final =>
    exact ⟨(main_follows_serializer (fun _ => hookProperties) sampleReflect sampleRoot final
        failingMarshal h).1 "unsupported value" rfl,
      (main_follows_serializer (fun _ => hookProperties) sampleReflect sampleRoot final
        sampleMarshal h).2 "doc" rfl⟩

/-! ## The closed type model -/

/-- C13 as stated fails: the hook and modifier types that `stepSchema` reflects
are not nine. -/
theorem type_model_counterexample :
    ¬ (coreStepConfigs.length = 8 ∧ hookAndModifierConfigs.length = 9) := by
  decide

/-- The sizes of the fixed tables: eight core step types, eight hook and
modifier types, all sixteen different, nine hook properties, and seventeen
fragments in all. -/
theorem type_model_counts (Reflect : atc.StepConfig → Schema) (schema : Schema) :
    coreStepConfigs.length = 8 ∧ hookAndModifierConfigs.length = 8 ∧
    (coreStepConfigs ++ hookAndModifierConfigs).Nodup ∧
    hookProperties.length = 9 ∧
    (coreDescriptors Reflect).length = 8 ∧
    (fragmentsOf Reflect hookAndModifierConfigs).length = 8 ∧
    (allFragments Reflect schema).length = 1 + 8 + 8 := by
  refine ⟨rfl, rfl, by decide, rfl, ?_, ?_, ?_⟩
  · simp [coreDescriptors, coreStepConfigs]
  · simp [fragmentsOf, hookAndModifierConfigs]
  · simp [allFragments, fragmentsOf, coreStepConfigs, hookAndModifierConfigs]

/-! ## The shape of an injected definition -/

theorem mapGet_dropKey {α : Type} (k : String) (m : List (String × α)) (x : String) :
    mapGet (dropKey k m) x = if x = k then none else mapGet m x := by
  induction m with
  | nil => simp [dropKey, mapGet]
  | cons kv rest ih =>
    obtain ⟨k0, v0⟩ := kv
    by_cases h0 : k0 = k
    · subst h0
      rw [dropKey_cons_same, ih]
      by_cases hx : x = k0
      · simp [hx]
      · have hx' : ¬ k0 = x := fun e => hx e.symm
        simp [hx, mapGet, hx']
    · rw [dropKey_cons_ne _ _ _ _ h0]
      simp only [mapGet, ih]
      by_cases hx : k0 = x
      · have hxk : ¬ x = k := fun e => h0 (hx.trans e)
        simp [hx, hxk]
      · simp [hx]

theorem mapGet_of_mem_nodup {α : Type} (m : List (String × α)) (hnd : NodupKeys m)
    (kv : String × α) (h : kv ∈ m) : mapGet m kv.1 = some kv.2 := by
  induction m with
  | nil => cases h
  | cons x rest ih =>
    obtain ⟨k0, v0⟩ := x
    have hnd' := (nodupKeys_cons (k0, v0) rest).mp hnd
    rcases List.mem_cons.mp h with rfl | hm
    · simp [mapGet]
    · have hne : ¬ k0 = kv.1 := by
        intro e
        apply hnd'.1
        show k0 ∈ mapKeys rest
        rw [e]
        exact List.mem_map_of_mem Prod.fst hm
      simp only [mapGet, hne, if_false]
      exact ih hnd'.2 hm

theorem mem_dropKey {α : Type} (k : String) (m : List (String × α)) (kv : String × α)
    (h : kv ∈ m) (hne : kv.1 ≠ k) : kv ∈ dropKey k m := by
  simp only [dropKey, List.mem_filter, decide_eq_true_eq]
  exact ⟨h, hne⟩

/-- The ordered map after the hook loop: under the original keys, in their
places, each entry is the original one or carries the hook type of its key;
the hook entries whose key was absent follow in visiting order. -/
theorem setAll_shape (props : List (String × jsonschema.Type_)) :
    ∀ hooks : List (String × jsonschema.Type_), NodupKeys hooks →
      ∃ pre, setAll hooks props =
          pre ++ hooks.filter (fun h => (mapGet props h.1).isNone) ∧
        List.Forall₂ (fun a b => b.1 = a.1 ∧ (b = a ∨ mapGet hooks a.1 = some b.2)) props pre ∧
        ∀ h ∈ hooks, mapGet props h.1 ≠ none → mapGet pre h.1 = some h.2 := by
  induction props with
  | nil =>
    intro hooks hnd
    refine ⟨[], ?_, List.Forall₂.nil, ?_⟩
    · rw [setAll_of_absent hooks hnd [] (fun _ _ => rfl)]
      simp [mapGet]
    · intro h _ hne
      exact absurd rfl hne
  | cons kv rest ih =>
    intro hooks hnd
    obtain ⟨k, v⟩ := kv
    rw [setAll_cons_props hooks hnd k v rest]
    cases hk : mapGet hooks k with
    | none =>
      obtain ⟨pre, e1, e2, e3⟩ := ih hooks hnd
      have hkey : ∀ h ∈ hooks, ¬ k = h.1 := by
        intro h hm e
        have := mapGet_of_mem hooks h hm
        rw [← e, hk] at this
        exact this rfl
      refine ⟨(k, v) :: pre, ?_, List.Forall₂.cons ⟨rfl, Or.inl rfl⟩ e2, ?_⟩
      · simp only [e1, List.cons_append, List.cons.injEq, true_and, List.append_cancel_left_eq]
        apply List.filter_congr
        intro h hm
        simp [mapGet, hkey h hm]
      · intro h hm hne
        simp only [mapGet, hkey h hm, if_false] at hne ⊢
        exact e3 h hm hne
    | some t =>
      obtain ⟨pre, e1, e2, e3⟩ := ih (dropKey k hooks) (nodupKeys_dropKey k hooks hnd)
      refine ⟨(k, t) :: pre, ?_, List.Forall₂.cons ⟨rfl, Or.inr hk⟩ ?_, ?_⟩
      · simp only [e1, List.cons_append, List.cons.injEq, true_and, List.append_cancel_left_eq]
        simp only [dropKey, List.filter_filter]
        apply List.filter_congr
        intro h _
        by_cases hh : k = h.1
        · simp [mapGet, hh]
        · have hh' : ¬ h.1 = k := fun e => hh e.symm
          simp [mapGet, hh, hh']
      · refine e2.imp ?_
        intro a b hab
        refine ⟨hab.1, hab.2.imp_right ?_⟩
        intro hd
        rw [mapGet_dropKey] at hd
        by_cases ha : a.1 = k
        · simp [ha] at hd
        · simpa [ha] using hd
      · intro h hm hne
        by_cases hh : k = h.1
        · have := mapGet_of_mem_nodup hooks hnd h hm
          rw [← hh, hk] at this
          simp only [mapGet, hh, if_true]
          rw [← Option.some.inj this]
        · simp only [mapGet, hh, if_false] at hne ⊢
          exact e3 h (mem_dropKey k hooks h hm (fun e => hh e.symm)) hne

theorem forall₂_mapKeys {α : Type} (r : String × α → String × α → Prop)
    (hr : ∀ a b, r a b → b.1 = a.1) (l1 l2 : List (String × α)) (h : List.Forall₂ r l1 l2) :
    mapKeys l2 = mapKeys l1 := by
  induction h with
  | nil => rfl
  | cons hab _ ih =>
    simp only [mapKeys, List.map_cons] at ih ⊢
    rw [hr _ _ hab, ih]

theorem firstDefinition_eq_some_iff (frags : List Definitions) (k : String)
    (d0 : jsonschema.Type_) :
    firstDefinition frags k = some d0 ↔
      ∃ pre frag post, frags = pre ++ frag :: post ∧ (∀ f ∈ pre, mapGet f k = none) ∧
        mapGet frag k = some d0 := by
  induction frags with
  | nil =>
    constructor
    · intro h
      cases h
    · rintro ⟨pre, frag, post, h, _⟩
      cases pre <;> cases h
  | cons f rest ih =>
    rw [firstDefinition_cons]
    cases hf : mapGet f k with
    | some d1 =>
      simp only
      constructor
      · intro h
        exact ⟨[], f, rest, rfl, (fun _ hm => by cases hm), hf.trans h⟩
      · rintro ⟨pre, frag, post, h, hpre, hfrag⟩
        cases pre with
        | nil =>
          simp only [List.nil_append, List.cons.injEq] at h
          rw [← h.1, hf] at hfrag
          exact hfrag
        | cons p pre1 =>
          simp only [List.cons_append, List.cons.injEq] at h
          have := hpre p (List.mem_cons_self _ _)
          rw [← h.1, hf] at this
          cases this
    | none =>
      simp only
      rw [ih]
      constructor
      · rintro ⟨pre, frag, post, h, hpre, hfrag⟩
        refine ⟨f :: pre, frag, post, by rw [h]; rfl, ?_, hfrag⟩
        intro g hg
        rcases List.mem_cons.mp hg with rfl | hg
        · exact hf
        · exact hpre g hg
      · rintro ⟨pre, frag, post, h, hpre, hfrag⟩
        cases pre with
        | nil =>
          simp only [List.nil_append, List.cons.injEq] at h
          rw [← h.1, hf] at hfrag
          cases hfrag
        | cons p pre1 =>
          simp only [List.cons_append, List.cons.injEq] at h
          exact ⟨pre1, frag, post, h.2, fun g hg => hpre g (List.mem_cons_of_mem _ hg), hfrag⟩

theorem firstDefinition_eq_none_iff (frags : List Definitions) (k : String) :
    firstDefinition frags k = none ↔ ∀ f ∈ frags, mapGet f k = none := by
  induction frags with
  | nil => simp [firstDefinition]
  | cons f rest ih =>
    rw [firstDefinition_cons]
    cases hf : mapGet f k with
    | some d1 =>
      constructor
      · intro h
        cases h
      · intro h
        have := h f (List.mem_cons_self _ _)
        rw [hf] at this
        cases this
    | none =>
      simp only
      rw [ih]
      constructor
      · intro h g hg
        rcases List.mem_cons.mp hg with rfl | hg
        · exact hf
        · exact h g hg
      · intro h g hg
        exact h g (List.mem_cons_of_mem _ hg)

/-- C15: after `stepSchema` the names bound in the table are exactly the names
bound in the root fragment, in one of the eight core step fragments or in one
of the eight hook and modifier fragments; and under every name that is neither
`Step` nor a core step name stands the definition of the earliest fragment,
in processing order, that defines the name. -/
theorem table_provenance
    (hookOrder : String → List (String × jsonschema.Type_))
    (Reflect : atc.StepConfig → Schema) (schema : Schema) (d : jsonschema.Type_)
    (hStep : mapGet schema.Definitions "Step" = some d)
    (hProps : variantPropertiesPresent Reflect schema = true) :
    ∃ out, stepSchema hookOrder Reflect schema = some out ∧
      allFragments Reflect schema =
        [schema.Definitions,
         (Reflect .GetStep).Definitions, (Reflect .PutStep).Definitions,
         (Reflect .TaskStep).Definitions, (Reflect .SetPipelineStep).Definitions,
         (Reflect .LoadVarStep).Definitions, (Reflect .InParallelStep).Definitions,
         (Reflect .DoStep).Definitions, (Reflect .TryStep).Definitions,
         (Reflect .OnSuccessStep).Definitions, (Reflect .OnFailureStep).Definitions,
         (Reflect .OnAbortStep).Definitions, (Reflect .OnErrorStep).Definitions,
         (Reflect .EnsureStep).Definitions, (Reflect .TimeoutStep).Definitions,
         (Reflect .RetryStep).Definitions, (Reflect .AcrossStep).Definitions] ∧
      (∀ k, k ∈ mapKeys out.Definitions ↔
        ∃ frag ∈ allFragments Reflect schema, k ∈ mapKeys frag) ∧
      (∀ k, k ≠ "Step" → k ∉ stepNames →
        mapGet out.Definitions k = firstDefinition (allFragments Reflect schema) k) ∧
      ∀ k d0, k ≠ "Step" → k ∉ stepNames →
        (mapGet out.Definitions k = some d0 ↔
          ∃ pre frag post, allFragments Reflect schema = pre ++ frag :: post ∧
            (∀ f ∈ pre, mapGet f k = none) ∧ mapGet frag k = some d0) := by
  obtain ⟨out, h1, _, _, _, h5⟩ := stepSchema_spec hookOrder Reflect schema d hStep hProps
  refine ⟨out, h1, rfl, ?_, h5, ?_⟩
  · intro k
    have hk := stepSchema_keys hookOrder Reflect schema out d hStep hProps h1 k
    rw [firstDefinition_eq_none_iff, mapGet_eq_none_iff] at hk
    constructor
    · intro hmem
      by_contra hcon
      apply hk.mpr _ hmem
      intro f hf
      rw [mapGet_eq_none_iff]
      intro hkf
      exact hcon ⟨f, hf, hkf⟩
    · rintro ⟨f, hf, hkf⟩
      by_contra hcon
      have := hk.mp hcon f hf
      rw [mapGet_eq_none_iff] at this
      exact this hkf
  · intro k d0 hk hn
    rw [h5 k hk hn, firstDefinition_eq_some_iff]

/-- C15, evaluated on the sample fragments: `AcrossStep` is bound because the
last modifier fragment defines it, and `Config` comes from the root fragment. -/
theorem table_provenance_witness :
    ∃ out, stepSchema (fun _ => hookProperties) sampleReflect sampleRoot = some out ∧
      "AcrossStep" ∈ mapKeys out.Definitions ∧
      mapGet out.Definitions "Config" =
        some (objectDef [("jobs", arrayType (refType "#/definitions/Step"))]) ∧
      mapGet out.Definitions "OnErrorStep" =
        some (objectDef [("name", primType "string")]) := by
  obtain ⟨out, h1, _, h3, h4, _⟩ :=
    table_provenance (fun _ => hookProperties) sampleReflect sampleRoot
      (objectDef [("config", primType "object")]) rfl (by decide)
  refine ⟨out, h1, ?_, ?_, ?_⟩
  · rw [h3]
    exact ⟨(sampleReflect .AcrossStep).Definitions,
      by simp [allFragments, fragmentsOf, coreStepConfigs, hookAndModifierConfigs],
      by simp [sampleReflect, typeName, mapKeys]⟩
  · rw [h4 "Config" (by decide) (by decide)]
    rfl
  · rw [h4 "OnErrorStep" (by decide) (by decide)]
    rfl

/-! ## Determinism up to the visiting order -/

/-- C6 amended: composition is deterministic up to the order of the hook keys
it appends.  Two runs on the same reflected fragments, whatever the orders in
which they visit the fragment maps and `hookProperties`, both stop or both
complete; when they complete they give the same root descriptor and the same
definition under every name that is not a core step name, and under a core
step name two definitions that are the reflected one with a new Properties
map.  Both maps start with the same entries: the keys the reflected definition
declared, in their places, each with its declared value unless the key is a
hook key, and a declared hook key looks up to its fixed hook type.  Each map
ends with the hook entries whose key was not declared, in the order in which
that run visited `hookProperties`; the two endings hold the same entries. -/
theorem composition_deterministic_up_to_hook_order
    (order1 order2 : String → List (String × jsonschema.Type_))
    (R1 R2 : atc.StepConfig → Schema) (schema : Schema)
    (hO1 : ∀ n, (order1 n).Perm hookProperties) (hO2 : ∀ n, (order2 n).Perm hookProperties)
    (hR : ∀ s, (R1 s).Type_ = (R2 s).Type_ ∧ (R1 s).Definitions.Perm (R2 s).Definitions ∧
      NodupKeys (R1 s).Definitions) :
    (stepSchema order1 R1 schema = none ∧ stepSchema order2 R2 schema = none) ∨
    ∃ out1 out2, stepSchema order1 R1 schema = some out1 ∧
      stepSchema order2 R2 schema = some out2 ∧
      out1.Type_ = out2.Type_ ∧
      (∀ k, k ∉ stepNames → mapGet out1.Definitions k = mapGet out2.Definitions k) ∧
      ∀ n ∈ stepNames,
        (mapGet out1.Definitions n = none ∧ mapGet out2.Definitions n = none) ∨
        ∃ v0 props0 v1 v2 pre suf1 suf2,
          firstDefinition (allFragments R1 schema) n = some v0 ∧
          v0.Properties = some props0 ∧
          mapGet out1.Definitions n = some v1 ∧ mapGet out2.Definitions n = some v2 ∧
          v1 = { v0 with Properties := some (pre ++ suf1) } ∧
          v2 = { v0 with Properties := some (pre ++ suf2) } ∧
          List.Forall₂
            (fun a b => b.1 = a.1 ∧ (b = a ∨ mapGet hookProperties a.1 = some b.2)) props0 pre ∧
          (∀ h ∈ hookProperties, mapGet props0 h.1 ≠ none → mapGet pre h.1 = some h.2) ∧
          suf1 = (order1 n).filter (fun h => (mapGet props0 h.1).isNone) ∧
          suf2 = (order2 n).filter (fun h => (mapGet props0 h.1).isNone) ∧
          v1.Properties = some (pre ++ suf1) ∧ v2.Properties = some (pre ++ suf2) ∧
          mapKeys pre = mapKeys props0 ∧ suf1.Perm suf2 ∧
          (∀ h ∈ suf1, h ∈ hookProperties) ∧
          v2 = { v1 with Properties := v2.Properties } := by
  have hlook : ∀ s k, mapGet (R1 s).Definitions k = mapGet (R2 s).Definitions k :=
    fun s k => mapGet_perm _ _ (hR s).2.1 (hR s).2.2 k
  have hPeq := variantPropertiesPresent_congr R1 R2 schema hlook
  cases hS : mapGet schema.Definitions "Step" with
  | none =>
    exact Or.inl ⟨(stepSchema_eq_none_iff order1 R1 schema hO1).mpr (Or.inl hS),
      (stepSchema_eq_none_iff order2 R2 schema hO2).mpr (Or.inl hS)⟩
  | some d =>
    cases hP : variantPropertiesPresent R1 schema with
    | false =>
      exact Or.inl ⟨(stepSchema_eq_none_iff order1 R1 schema hO1).mpr (Or.inr hP),
        (stepSchema_eq_none_iff order2 R2 schema hO2).mpr (Or.inr (hPeq ▸ hP))⟩
    | true =>
      right
      obtain ⟨out1, a1, a2, a3, a4, a5⟩ := stepSchema_spec order1 R1 schema d hS hP
      obtain ⟨out2, b1, b2, b3, b4, b5⟩ := stepSchema_spec order2 R2 schema d hS (hPeq ▸ hP)
      refine ⟨out1, out2, a1, b1, a2.trans b2.symm, ?_, ?_⟩
      · intro k hk
        by_cases hkS : k = "Step"
        · subst hkS
          rw [a3, b3, coreDescriptors_congr R1 R2 (fun s => (hR s).1)]
        · rw [a5 k hkS hk, b5 k hkS hk, allFragments_congr R1 R2 schema hlook]
      · intro n hn
        rw [a4 n hn, b4 n hn, ← allFragments_congr R1 R2 schema hlook]
        cases hf : firstDefinition (allFragments R1 schema) n with
        | none => exact Or.inl ⟨rfl, rfl⟩
        | some v0 =>
          right
          have hv0 := (variantPropertiesPresent_iff R1 schema).mp hP n hn v0 hf
          cases hp : v0.Properties with
          | none => exact absurd hp hv0
          | some props0 =>
            have hnd1 : NodupKeys (order1 n) :=
              nodupKeys_of_perm _ _ (hO1 n) hookProperties_nodupKeys
            have hnd2 : NodupKeys (order2 n) :=
              nodupKeys_of_perm _ _ (hO2 n) hookProperties_nodupKeys
            obtain ⟨pre, s1, s2, e1, e2, e3, _, _⟩ :=
              setAll_perm props0 (order1 n) (order2 n) ((hO1 n).trans (hO2 n).symm) hnd1
            obtain ⟨pre1, c1, c2, c3⟩ := setAll_shape props0 (order1 n) hnd1
            obtain ⟨pre2, d1, d2, _⟩ := setAll_shape props0 (order2 n) hnd2
            have hlen : pre.length = props0.length := by
              have := congrArg List.length e3
              simpa [mapKeys] using this
            have q1 := List.append_inj (e1.symm.trans c1) (hlen.trans c2.length_eq)
            have q2 := List.append_inj (e2.symm.trans d1) (hlen.trans d2.length_eq)
            have d1' : setAll (order2 n) props0 =
                pre1 ++ (order2 n).filter (fun h => (mapGet props0 h.1).isNone) := by
              rw [d1, ← q2.1, q1.1]
            have c2' : List.Forall₂
                (fun a b => b.1 = a.1 ∧ (b = a ∨ mapGet hookProperties a.1 = some b.2))
                props0 pre1 := by
              refine c2.imp ?_
              intro a b hab
              exact ⟨hab.1, hab.2.imp_right
                (fun hd => (mapGet_perm _ _ (hO1 n) hnd1 a.1) ▸ hd)⟩
            refine ⟨v0, props0,
              { v0 with
                Properties := some (pre1 ++ (order1 n).filter (fun h => (mapGet props0 h.1).isNone)) },
              { v0 with
                Properties := some (pre1 ++ (order2 n).filter (fun h => (mapGet props0 h.1).isNone)) },
              pre1, (order1 n).filter (fun h => (mapGet props0 h.1).isNone),
              (order2 n).filter (fun h => (mapGet props0 h.1).isNone),
              rfl, hp, ?_, ?_, rfl, rfl, c2', ?_, rfl, rfl, rfl, rfl,
              forall₂_mapKeys _ (fun _ _ hab => hab.1) props0 pre1 c2',
              ((hO1 n).trans (hO2 n).symm).filter _, ?_, rfl⟩
            · rw [← c1]
              exact setHooks_of_present _ v0 props0 hp
            · rw [← d1']
              exact setHooks_of_present _ v0 props0 hp
            · intro h hm hne
              exact c3 h ((hO1 n).mem_iff.mpr hm) hne
            · intro h hm
              exact (hO1 n).mem_iff.mp (List.mem_of_mem_filter hm)

/-- C6 amended, evaluated on two runs that visit the hook entries in opposite
orders and the fragment maps in opposite orders. -/
theorem composition_deterministic_up_to_hook_order_witness :
    (stepSchema (fun _ => hookProperties) shadowReflect emptyStepRoot = none ∧
      stepSchema (fun _ => hookProperties.reverse) reversedReflect emptyStepRoot = none) ∨
    ∃ out1 out2, stepSchema (fun _ => hookProperties) shadowReflect emptyStepRoot = some out1 ∧
      stepSchema (fun _ => hookProperties.reverse) reversedReflect emptyStepRoot = some out2 ∧
      out1.Type_ = out2.Type_ ∧
      (∀ k, k ∉ stepNames → mapGet out1.Definitions k = mapGet out2.Definitions k) ∧
      ∀ n ∈ stepNames,
        (mapGet out1.Definitions n = none ∧ mapGet out2.Definitions n = none) ∨
        ∃ v0 props0 v1 v2 pre suf1 suf2,
          firstDefinition (allFragments shadowReflect emptyStepRoot) n = some v0 ∧
          v0.Properties = some props0 ∧
          mapGet out1.Definitions n = some v1 ∧ mapGet out2.Definitions n = some v2 ∧
          v1 = { v0 with Properties := some (pre ++ suf1) } ∧
          v2 = { v0 with Properties := some (pre ++ suf2) } ∧
          List.Forall₂
            (fun a b => b.1 = a.1 ∧ (b = a ∨ mapGet hookProperties a.1 = some b.2)) props0 pre ∧
          (∀ h ∈ hookProperties, mapGet props0 h.1 ≠ none → mapGet pre h.1 = some h.2) ∧
          suf1 = hookProperties.filter (fun h => (mapGet props0 h.1).isNone) ∧
          suf2 = hookProperties.reverse.filter (fun h => (mapGet props0 h.1).isNone) ∧
          v1.Properties = some (pre ++ suf1) ∧ v2.Properties = some (pre ++ suf2) ∧
          mapKeys pre = mapKeys props0 ∧ suf1.Perm suf2 ∧
          (∀ h ∈ suf1, h ∈ hookProperties) ∧
          v2 = { v1 with Properties := v2.Properties } :=
  composition_deterministic_up_to_hook_order (fun _ => hookProperties)
    (fun _ => hookProperties.reverse) shadowReflect reversedReflect emptyStepRoot
    (fun _ => List.Perm.refl _) (fun _ => List.reverse_perm _)
    (fun s => ⟨rfl, (List.reverse_perm _).symm, by
      cases s <;> (unfold NodupKeys; decide)⟩)

/-! ## The types that `stepSchema` reflects -/

theorem stepSchema_key_union (hookOrder : String → List (String × jsonschema.Type_))
    (Reflect : atc.StepConfig → Schema) (schema out : Schema) (d : jsonschema.Type_)
    (hStep : mapGet schema.Definitions "Step" = some d)
    (hProps : variantPropertiesPresent Reflect schema = true)
    (hout : stepSchema hookOrder Reflect schema = some out) (k : String) :
    k ∈ mapKeys out.Definitions ↔ ∃ frag ∈ allFragments Reflect schema, k ∈ mapKeys frag := by
  have hk := stepSchema_keys hookOrder Reflect schema out d hStep hProps hout k
  rw [firstDefinition_eq_none_iff, mapGet_eq_none_iff] at hk
  constructor
  · intro hmem
    by_contra hcon
    apply hk.mpr _ hmem
    intro f hf
    rw [mapGet_eq_none_iff]
    intro hkf
    exact hcon ⟨f, hf, hkf⟩
  · rintro ⟨f, hf, hkf⟩
    by_contra hcon
    have := hk.mp hcon f hf
    rw [mapGet_eq_none_iff] at this
    exact this hkf

/-- C13 amended: `stepSchema` works over eight core step types and eight hook
and modifier types.  On every completing run it appends to the union under
`Step` the descriptors of exactly the eight core step types, in list order,
and the names bound in the final table are exactly those of the root fragment,
of the fragments of the eight core step types and of the fragments of the
eight hook and modifier types; the two lists have eight entries each, all
sixteen different, next to the nine entries of the hook property table. -/
theorem stepSchema_reflects_eight_and_eight
    (hookOrder : String → List (String × jsonschema.Type_))
    (Reflect : atc.StepConfig → Schema) (schema : Schema) (d : jsonschema.Type_)
    (hStep : mapGet schema.Definitions "Step" = some d)
    (hProps : variantPropertiesPresent Reflect schema = true) :
    coreStepConfigs.length = 8 ∧ hookAndModifierConfigs.length = 8 ∧
    (coreStepConfigs ++ hookAndModifierConfigs).Nodup ∧ hookProperties.length = 9 ∧
    ∃ out stepDef, stepSchema hookOrder Reflect schema = some out ∧
      mapGet out.Definitions "Step" = some stepDef ∧
      stepDef.AnyOf = d.AnyOf ++
        [(Reflect .GetStep).Type_, (Reflect .PutStep).Type_, (Reflect .TaskStep).Type_,
         (Reflect .SetPipelineStep).Type_, (Reflect .LoadVarStep).Type_,
         (Reflect .InParallelStep).Type_, (Reflect .DoStep).Type_,
         (Reflect .TryStep).Type_] ∧
      stepDef.AnyOf.length = d.AnyOf.length + 8 ∧
      ∀ k, k ∈ mapKeys out.Definitions ↔
        (k ∈ mapKeys schema.Definitions ∨
          (∃ s ∈ [atc.StepConfig.GetStep, .PutStep, .TaskStep, .SetPipelineStep,
              .LoadVarStep, .InParallelStep, .DoStep, .TryStep],
            k ∈ mapKeys (Reflect s).Definitions) ∨
          (∃ s ∈ [atc.StepConfig.OnSuccessStep, .OnFailureStep, .OnAbortStep, .OnErrorStep,
              .EnsureStep, .TimeoutStep, .RetryStep, .AcrossStep],
            k ∈ mapKeys (Reflect s).Definitions)) := by
  obtain ⟨out, h1, _, h3, _, _⟩ := stepSchema_spec hookOrder Reflect schema d hStep hProps
  refine ⟨rfl, rfl, by decide, rfl, out, _, h1, h3, ?_, ?_, ?_⟩
  · simp [relaxed, coreDescriptors, coreStepConfigs]
  · simp [relaxed, coreDescriptors, coreStepConfigs]
  · intro k
    rw [stepSchema_key_union hookOrder Reflect schema out d hStep hProps h1 k]
    simp only [allFragments, fragmentsOf, coreStepConfigs, hookAndModifierConfigs,
      List.map_append, List.map_cons, List.map_nil, List.mem_cons, List.mem_append,
      List.not_mem_nil, or_false, exists_eq_or_imp, exists_eq_left, List.cons_append,
      List.nil_append]
    tauto

/-- C13 amended, evaluated on the sample fragments. -/
theorem stepSchema_reflects_eight_and_eight_witness :
    ∃ out stepDef, stepSchema (fun _ => hookProperties) sampleReflect sampleRoot = some out ∧
      mapGet out.Definitions "Step" = some stepDef ∧
      stepDef.AnyOf.length = 0 + 8 ∧
      "TryStep" ∈ mapKeys out.Definitions ∧ "AcrossStep" ∈ mapKeys out.Definitions ∧
      "Missing" ∉ mapKeys out.Definitions := by
  obtain ⟨_, _, _, _, out, stepDef, h1, h2, _, h4, h5⟩ :=
    stepSchema_reflects_eight_and_eight (fun _ => hookProperties) sampleReflect sampleRoot
      (objectDef [("config", primType "object")]) rfl (by decide)
  refine ⟨out, stepDef, h1, h2, h4, ?_, ?_, ?_⟩
  · rw [h5]
    exact Or.inr (Or.inl ⟨.TryStep, by simp, by simp [sampleReflect, typeName, mapKeys]⟩)
  · rw [h5]
    exact Or.inr (Or.inr ⟨.AcrossStep, by simp, by simp [sampleReflect, typeName, mapKeys]⟩)
  · rw [h5]
    simp [sampleReflect, sampleRoot, typeName, mapKeys]
end Composer
